import Mathlib

/-!
# Verification of the `slim_hash.h` open-addressing hash table

This file is a shallow embedding of the macro-generated hash table of
`src/slim_hash.h` (the `SH_GEN_IMPL` macro) together with the default
`sh_murmur3` hash function, and proofs about the embedded operations.

Modelling conventions:

* A generated hash table `struct name { uint32_t length, capacity, deleted;
  struct name_slot* slots; }` is the structure `SH α β`; the slot array is a
  `List (Slot α β)` whose length equals `capacity` in every allocated table.
* The policy expressions of `SH_GEN_IMPL` are passed to each operation exactly
  as the corresponding C function uses them: `key_hash_expr` is
  `hash : α → Nat` (a `uint32_t`-valued function, reduced `% 2^32`),
  `key_cmp_expr` is `cmp : α → α → Bool` (applied as `cmp stored query`),
  `key_put_expr` is `ingest : α → α`, and `key_del_expr` is `retire : α → α`.
  A C function whose body does not contain one of the expressions does not
  receive it as an argument (in particular `name##_resize` and
  `name##_put_ptr_internal` never see `key_put_expr`).
* `calloc_expr` is modelled by a boolean oracle `alloc`: `true` means the
  allocation succeeds and yields zeroed slots, `false` means it returns NULL.
* Machine integers: `length`, `capacity`, `deleted` and all hashes are
  `uint32_t`; increments, decrements, the doubling of the capacity and the
  sum `length + deleted + 1` are reduced modulo `2^32`.  Probe indices are
  `size_t` and cannot overflow, so they are plain `Nat`.
* Partiality: the C probe loops terminate after at most `capacity` steps
  whenever they terminate at all (the probe sequence is cyclic with period
  `capacity` and the loop body has no side effects), so they are modelled
  with fuel `capacity`; exhausted fuel (`none`) models a diverging loop.
  `Option` results likewise model NULL-pointer dereference (`sh_put` through
  a NULL `put_ptr` result) as `none`.
* Value pointers (`value_t*`) are modelled as slot indices.
-/

set_option autoImplicit false

namespace SlimHash

/-- `#define SH_SLOT_FREE 0x00000000` -/
def SH_SLOT_FREE : Nat := 0x00000000

/-- `#define SH_SLOT_DELETED 0x00000001` -/
def SH_SLOT_DELETED : Nat := 0x00000001

/-- `#define SH_SLOT_FILLED 0x80000000` -/
def SH_SLOT_FILLED : Nat := 0x80000000

/-- Modulus of `uint32_t` arithmetic. -/
def u32 : Nat := 4294967296

/-- `uint32_t` increment (`x++`). -/
def inc32 (n : Nat) : Nat := (n + 1) % u32

/-- `uint32_t` decrement (`x--`). -/
def dec32 (n : Nat) : Nat := if n = 0 then u32 - 1 else n - 1

/-- One slot of the table: `struct name##_slot { uint32_t hash_or_flags;
key_t key; value_t value; }`. -/
structure Slot (α β : Type) where
  hash_or_flags : Nat
  key : α
  value : β
  deriving DecidableEq

/-- The table itself: `struct name { uint32_t length, capacity, deleted;
struct name##_slot* slots; }`.  The slot array is a list; a NULL slot
pointer (before `name##_new` has allocated anything) is the empty list. -/
structure SH (α β : Type) where
  length : Nat
  capacity : Nat
  deleted : Nat
  slots : List (Slot α β)
  deriving DecidableEq

variable {α β : Type} [Inhabited α] [Inhabited β]

/-- A zeroed slot, as produced by `calloc`: `hash_or_flags` is zero
(`SH_SLOT_FREE` is chosen so that calloc-ed slots read as free) and the
key and value are the zero values of their types. -/
def zeroSlot : Slot α β := ⟨SH_SLOT_FREE, default, default⟩

/-- The predicate by which the iterator (`name##_next`) and `name##_destroy`
recognize an occupied slot: `hash_or_flags` is neither `SH_SLOT_FREE` nor
`SH_SLOT_DELETED`. -/
def isFilledHof (h : Nat) : Bool :=
  !(h == SH_SLOT_FREE) && !(h == SH_SLOT_DELETED)

/-- The tagged hash computed at the top of `put_ptr_internal`, `get_ptr` and
`del`: `uint32_t hash = (key_hash_expr) | SH_SLOT_FILLED;`.  The `% u32`
models the `uint32_t` type of `key_hash_expr`. -/
def hf (hash : α → Nat) (k : α) : Nat := (hash k % u32) ||| SH_SLOT_FILLED

/-- The generic linear-probe loop shared (in shape) by `put_ptr_internal`,
`get_ptr` and `del`: starting at `idx`, advance by `(idx + 1) % cap` until a
slot satisfying `stop` is reached (`some index`) or the fuel is exhausted
(`none`, modelling a probe loop that never terminates). -/
def probeAux (stop : Slot α β → Bool) (slots : List (Slot α β)) (cap : Nat) :
    Nat → Nat → Option Nat
  | 0, _ => none
  | fuel + 1, idx =>
    match slots.get? idx with
    | none => none
    | some s => if stop s then some idx else probeAux stop slots cap fuel ((idx + 1) % cap)

/-- Stop condition of the probe loop in `name##_put_ptr_internal`: the loop
runs `while (!(free || deleted))` and breaks out on a matching filled slot
(`hash_or_flags == hash` and `key_cmp_expr`). -/
def putStop (cmp : α → α → Bool) (h : Nat) (key : α) (s : Slot α β) : Bool :=
  s.hash_or_flags == SH_SLOT_FREE || s.hash_or_flags == SH_SLOT_DELETED ||
    (s.hash_or_flags == h && cmp s.key key)

/-- Stop condition of the probe loops in `name##_get_ptr` and `name##_del`:
the loop runs `while (!free)` and returns on a matching filled slot. -/
def getStop (cmp : α → α → Bool) (h : Nat) (key : α) (s : Slot α β) : Bool :=
  s.hash_or_flags == SH_SLOT_FREE ||
    (s.hash_or_flags == h && cmp s.key key)

/-- The match test shared by the probe loops: the slot caches the tagged
hash of the probed key and `key_cmp_expr` accepts (`slot.hash_or_flags ==
hash && key_cmp_expr(slot.key, key)`).  A key is absent from a table
precisely when no slot satisfies it. -/
def matchesKey (hash : α → Nat) (cmp : α → α → Bool) (k : α) (s : Slot α β) : Bool :=
  (s.hash_or_flags == hf hash k) && cmp s.key k

/-- The mutation performed by `name##_put_ptr_internal` once its probe has
settled on slot `i`:
`if (slot deleted) deleted--; length++; slot.hash_or_flags = hash;
slot.key = key;` (the slot's value is left as it was — the caller stores
the value through the returned pointer). -/
def putInternalResult (hash : α → Nat) (t : SH α β) (key : α) (i : Nat) : SH α β :=
  let old := t.slots.getD i zeroSlot
  { t with
    deleted := if old.hash_or_flags == SH_SLOT_DELETED then dec32 t.deleted else t.deleted,
    length := inc32 t.length,
    slots := t.slots.set i ⟨hf hash key, key, old.value⟩ }

/-- `name##_put_ptr_internal`: probes for the slot of `key` (first free or
deleted slot, or a filled slot with matching hash and `key_cmp_expr`), then
unconditionally stores the key and tagged hash there, decrementing `deleted`
when a tombstone is reused and incrementing `length`.  Returns the updated
table and the index of the value slot ("pointer to the value"). -/
def sh_put_ptr_internal (hash : α → Nat) (cmp : α → α → Bool)
    (t : SH α β) (key : α) : Option (SH α β × Nat) :=
  let h := hf hash key
  match probeAux (putStop cmp h key) t.slots t.capacity t.capacity (h % t.capacity) with
  | none => none
  | some i => some (putInternalResult hash t key i, i)

/-- Writing a value through the pointer returned by `put_ptr`
(`*name##_put_ptr(...) = value`, and the value copy in `name##_resize`). -/
def writeValue (t : SH α β) (i : Nat) (v : β) : SH α β :=
  let old := t.slots.getD i zeroSlot
  { t with slots := t.slots.set i ⟨old.hash_or_flags, old.key, v⟩ }

/-- The slot retirement shared by `name##_del` and `name##_remove` at slot
`i`: store `key_del_expr` of the stored key, mark the slot
`SH_SLOT_DELETED`, decrement `length`, increment `deleted`. -/
def delAt (retire : α → α) (t : SH α β) (i : Nat) : SH α β :=
  let old := t.slots.getD i zeroSlot
  { t with
    slots := t.slots.set i ⟨SH_SLOT_DELETED, retire old.key, old.value⟩,
    length := dec32 t.length,
    deleted := inc32 t.deleted }

/-- The re-insertion loop of `name##_resize`:
`for(it = start(hashmap); it; it = next(hashmap, it))
   *put_ptr_internal(&new_hashmap, it->key) = it->value;`
`start`/`next` walk the old slot array in physical order and skip free and
deleted slots, so the loop processes exactly the filled slots in list order.
`key_put_expr` does not occur in this loop. -/
def reinsert (hash : α → Nat) (cmp : α → α → Bool) :
    List (Slot α β) → SH α β → Option (SH α β)
  | [], t => some t
  | s :: rest, t =>
    if isFilledHof s.hash_or_flags then
      match sh_put_ptr_internal hash cmp t s.key with
      | none => none
      | some (t', i) => reinsert hash cmp rest (writeValue t' i s.value)
    else reinsert hash cmp rest t

/-- `name##_resize`: fails (keeping the table untouched) if
`new_capacity < length` or if the allocation fails; otherwise builds a fresh
zeroed table of the new capacity, re-inserts every filled slot, frees the old
array and swaps the new table in.  The `Bool` is the C return value. -/
def sh_resize (hash : α → Nat) (cmp : α → α → Bool) (alloc : Bool)
    (t : SH α β) (new_capacity : Nat) : Option (Bool × SH α β) :=
  if new_capacity < t.length then some (false, t)
  else if alloc then
    match reinsert hash cmp t.slots ⟨0, new_capacity, 0, List.replicate new_capacity zeroSlot⟩ with
    | none => none
    | some t' => some (true, t')
  else some (false, t)

/-- The table before `name##_new` has run: all counters zero, NULL slots. -/
def emptySH : SH α β := ⟨0, 0, 0, []⟩

/-- `name##_new`: zeroes the struct and calls `resize(hashmap, 8)`,
ignoring its result. -/
def sh_new (hash : α → Nat) (cmp : α → α → Bool) (alloc : Bool) : SH α β :=
  match sh_resize hash cmp alloc emptySH 8 with
  | some (_, t) => t
  | none => emptySH

/-- `name##_put_ptr`: grows the table by doubling (`resize` to
`capacity * 2`, or 8 from capacity 0) when `length + deleted + 1 >
capacity * 0.5`, returning NULL (`some (t, none)`) if that resize reports
failure; then runs `key_put_expr` on the key and hands the result to
`put_ptr_internal`.  For a `uint32_t` capacity `c < 2^32` the comparison
`length + deleted + 1 > c * 0.5` of a `uint32_t` sum with the exact double
`c * 0.5` is equivalent to `sum > c / 2` in integers (for odd `c`,
`sum > c/2 + 1/2 ↔ sum > ⌊c/2⌋`). -/
def sh_put_ptr (hash : α → Nat) (cmp : α → α → Bool) (ingest : α → α)
    (alloc : Bool) (t : SH α β) (key : α) : Option (SH α β × Option Nat) :=
  if (t.length + t.deleted + 1) % u32 > t.capacity / 2 then
    let nc := if t.capacity == 0 then 8 else (t.capacity * 2) % u32
    match sh_resize hash cmp alloc t nc with
    | none => none
    | some (false, t₁) => some (t₁, none)
    | some (true, t₁) =>
      match sh_put_ptr_internal hash cmp t₁ (ingest key) with
      | none => none
      | some (t₂, i) => some (t₂, some i)
  else
    match sh_put_ptr_internal hash cmp t (ingest key) with
    | none => none
    | some (t₂, i) => some (t₂, some i)

/-- `name##_put`: `*name##_put_ptr(hashmap, key) = value;` — dereferences
the returned pointer unconditionally, so a NULL result (failed grow) is a
NULL-pointer write, modelled as `none`. -/
def sh_put (hash : α → Nat) (cmp : α → α → Bool) (ingest : α → α)
    (alloc : Bool) (t : SH α β) (key : α) (value : β) : Option (SH α β) :=
  match sh_put_ptr hash cmp ingest alloc t key with
  | some (t', some i) => some (writeValue t' i value)
  | _ => none

/-- `name##_get_ptr`: probes from `hash % capacity`, skipping every slot
that is neither free nor a hash-and-key match; returns the value slot index
(`some (some i)`), NULL (`some none`) on reaching a free slot, or `none`
for a probe loop that never terminates. -/
def sh_get_ptr (hash : α → Nat) (cmp : α → α → Bool)
    (t : SH α β) (key : α) : Option (Option Nat) :=
  let h := hf hash key
  match probeAux (getStop cmp h key) t.slots t.capacity t.capacity (h % t.capacity) with
  | none => none
  | some i =>
    if (t.slots.getD i zeroSlot).hash_or_flags == SH_SLOT_FREE then some none
    else some (some i)

/-- `name##_get`: returns the value behind `get_ptr`, or `default_value`
when `get_ptr` returned NULL. -/
def sh_getVal (hash : α → Nat) (cmp : α → α → Bool)
    (t : SH α β) (key : α) (default_value : β) : Option β :=
  match sh_get_ptr hash cmp t key with
  | none => none
  | some none => some default_value
  | some (some i) => some ((t.slots.getD i zeroSlot).value)

/-- The halving loop of `name##_shrink_if_necessary`:
`while (length < new_capacity * 0.25 && new_capacity > 8) new_capacity /= 2;`
For `uint32_t` operands the exact-double comparison `length < nc * 0.25` is
equivalent to `4 * length < nc`.  The loop halves `nc` at each step, so it
performs fewer than `nc` iterations; `fuel` is instantiated with the initial
`nc` by the caller. -/
def shrinkLoop (len : Nat) : Nat → Nat → Nat
  | 0, nc => nc
  | fuel + 1, nc => if 4 * len < nc ∧ 8 < nc then shrinkLoop len fuel (nc / 2) else nc

/-- `name##_shrink_if_necessary`: computes the target capacity by repeated
halving and resizes when it got smaller, returning `true` in that case and
ignoring the result of `resize`. -/
def sh_shrink_if_necessary (hash : α → Nat) (cmp : α → α → Bool)
    (alloc : Bool) (t : SH α β) : Option (Bool × SH α β) :=
  let nc := shrinkLoop t.length t.capacity t.capacity
  if nc < t.capacity then
    match sh_resize hash cmp alloc t nc with
    | none => none
    | some (_, t') => some (true, t')
  else some (false, t)

/-- `name##_del`: probes like `get_ptr`; when a matching filled slot is
found, stores `key_del_expr` of the stored key in the slot, marks it
`SH_SLOT_DELETED`, decrements `length`, increments `deleted`, runs
`shrink_if_necessary` and returns `true`.  Reaching a free slot returns
`false` with the table untouched (in particular without any shrink check). -/
def sh_del (hash : α → Nat) (cmp : α → α → Bool) (retire : α → α)
    (alloc : Bool) (t : SH α β) (key : α) : Option (Bool × SH α β) :=
  let h := hf hash key
  match probeAux (getStop cmp h key) t.slots t.capacity t.capacity (h % t.capacity) with
  | none => none
  | some i =>
    if (t.slots.getD i zeroSlot).hash_or_flags == SH_SLOT_FREE then some (false, t)
    else
      match sh_shrink_if_necessary hash cmp alloc (delAt retire t i) with
      | none => none
      | some (_, t₂) => some (true, t₂)

/-- `name##_remove`: the iterator removal.  The cursor is a slot pointer,
modelled as `Option Int` (`none` is NULL, `some i` points `i` slots past the
start of the array, possibly negative).  Only when the cursor is non-NULL
and inside the array (`it >= slots && it - slots < capacity`) does it retire
the key, mark the slot deleted, decrement `length` and increment `deleted`;
otherwise the table is left untouched.  No shrink check is performed. -/
def sh_remove (retire : α → α) (t : SH α β) (it : Option Int) : SH α β :=
  match it with
  | none => t
  | some i =>
    if 0 ≤ i ∧ i < (t.capacity : Int) then delAt retire t i.toNat
    else t

/-- 32-bit rotate left on a `uint32_t`:
`(x << r) | (x >> (32 - r))` for `0 < r < 32`. -/
def rotl32 (x r : Nat) : Nat := ((x <<< r) % u32) ||| ((x % u32) >>> (32 - r))

/-- One little-endian `uint32_t` block `data[i]` read from the byte span of
`sh_murmur3` (`const uint32_t* data = (const uint32_t*)key`). -/
def murmurBlock (bytes : List Nat) (i : Nat) : Nat :=
  bytes.getD (4 * i) 0 + 256 * bytes.getD (4 * i + 1) 0 +
    65536 * bytes.getD (4 * i + 2) 0 + 16777216 * bytes.getD (4 * i + 3) 0

/-- One iteration of the body loop of `sh_murmur3`. -/
def murmurStep (h0 k : Nat) : Nat :=
  let k1 := (k * 0xcc9e2d51) % u32
  let k2 := rotl32 k1 15
  let k3 := (k2 * 0x1b873593) % u32
  let h1 := h0 ^^^ k3
  let h2 := rotl32 h1 13
  (h2 * 5 + 0xe6546b64) % u32

/-- The tail `switch (size & 3)` of `sh_murmur3` with its fall-through:
assembles up to three remaining bytes into `k1` and mixes them into `h1`
when at least one byte remains. -/
def murmurTail (bytes : List Nat) (base tailLen h0 : Nat) : Nat :=
  let k1 := (if 3 ≤ tailLen then bytes.getD (base + 2) 0 <<< 16 else 0) ^^^
            (if 2 ≤ tailLen then bytes.getD (base + 1) 0 <<< 8 else 0) ^^^
            (if 1 ≤ tailLen then bytes.getD base 0 else 0)
  if 1 ≤ tailLen then
    let k2 := (k1 * 0xcc9e2d51) % u32
    let k3 := rotl32 k2 15
    let k4 := (k3 * 0x1b873593) % u32
    h0 ^^^ k4
  else h0

/-- The finalization of `sh_murmur3`: `h1 ^= size` (the `int` converted to
`uint32_t`) followed by the xor-shift/multiply avalanche. -/
def murmurFinalize (h0 : Nat) (size : Int) : Nat :=
  let h1 := h0 ^^^ (size.emod (u32 : Int)).toNat
  let h2 := h1 ^^^ (h1 >>> 16)
  let h3 := (h2 * 0x85ebca6b) % u32
  let h4 := h3 ^^^ (h3 >>> 13)
  let h5 := (h4 * 0xc2b2ae35) % u32
  h5 ^^^ (h5 >>> 16)

/-- `sh_murmur3(const void* key, int size, uint32_t seed)`.  `key` is the
byte span pointed to (`none` models a NULL pointer), `size` is the C `int`.
A non-positive `size` makes the body loop run zero times
(`nblocks = size / 4 ≤ 0` truncating towards zero), and `size & 3` on a
two's-complement `int` equals the Euclidean remainder `size mod 4`. -/
def sh_murmur3 (key : Option (List Nat)) (size : Int) (seed : Nat) : Nat :=
  if key = none ∨ size = 0 then 0
  else
    let bytes := key.getD []
    let nblocks : Nat := if 0 ≤ size then size.toNat / 4 else 0
    let body := (List.range nblocks).foldl
      (fun h i => murmurStep h (murmurBlock bytes i)) (seed % u32)
    let tailLen : Nat := (size.emod 4).toNat
    murmurFinalize (murmurTail bytes (4 * nblocks) tailLen body) size

/-- The states reachable from `name##_new()` by the public mutating
operations — `put`, `del`, the iterator removal `remove` (applied, per the
iterator contract, to a cursor delivered by `start`/`next`, i.e. one that
points at a filled slot in bounds) and `shrink_if_necessary` — with every
allocation succeeding.  `get`, `contains`, `start` and `next` do not mutate
the table. -/
inductive Reachable (hash : α → Nat) (cmp : α → α → Bool)
    (ingest : α → α) (retire : α → α) : SH α β → Prop
  | new : Reachable hash cmp ingest retire (sh_new hash cmp true)
  | put (t : SH α β) (k : α) (v : β) (t' : SH α β) :
      Reachable hash cmp ingest retire t →
      sh_put hash cmp ingest true t k v = some t' →
      Reachable hash cmp ingest retire t'
  | del (t : SH α β) (k : α) (b : Bool) (t' : SH α β) :
      Reachable hash cmp ingest retire t →
      sh_del hash cmp retire true t k = some (b, t') →
      Reachable hash cmp ingest retire t'
  | rem (t : SH α β) (i : Nat) :
      Reachable hash cmp ingest retire t →
      i < t.slots.length →
      isFilledHof ((t.slots.getD i zeroSlot).hash_or_flags) = true →
      Reachable hash cmp ingest retire (sh_remove retire t (some (Int.ofNat i)))
  | shrink (t : SH α β) (b : Bool) (t' : SH α β) :
      Reachable hash cmp ingest retire t →
      sh_shrink_if_necessary hash cmp true t = some (b, t') →
      Reachable hash cmp ingest retire t'

/-- Number of slots of a slot array whose `hash_or_flags` satisfies `p`. -/
def countHof (p : Nat → Bool) : List (Slot α β) → Nat
  | [] => 0
  | s :: rest => (if p s.hash_or_flags then 1 else 0) + countHof p rest

/-- Number of filled slots (the entries the iterator visits). -/
def filledCount (slots : List (Slot α β)) : Nat := countHof isFilledHof slots

/-- Number of tombstone slots. -/
def deletedCount (slots : List (Slot α β)) : Nat :=
  countHof (fun h => h == SH_SLOT_DELETED) slots

/-- Number of free slots. -/
def freeCount (slots : List (Slot α β)) : Nat :=
  countHof (fun h => h == SH_SLOT_FREE) slots

/-- The state invariant maintained by every table reachable through the
public operations (with succeeding allocations): the slot array has exactly
`capacity` entries; the capacity is a power of two between 8 and `2^31`;
the `length` field dominates the number of filled slots (they agree until
the first `put` that overwrites an existing key, which bumps `length`
without filling a new slot); the `deleted` field counts the tombstones
exactly; the occupancy `length + deleted` never exceeds half the capacity;
and every filled slot caches the tagged hash of its stored key. -/
structure Inv (hash : α → Nat) (t : SH α β) : Prop where
  slots_len : t.slots.length = t.capacity
  cap_ge : 8 ≤ t.capacity
  cap_le : t.capacity ≤ 2 ^ 31
  cap_pow : ∃ k, t.capacity = 2 ^ k
  filled_le : filledCount t.slots ≤ t.length
  deleted_eq : deletedCount t.slots = t.deleted
  load : t.length + t.deleted ≤ t.capacity / 2
  hash_consistent : ∀ i, i < t.slots.length →
    isFilledHof (t.slots.getD i zeroSlot).hash_or_flags = true →
    (t.slots.getD i zeroSlot).hash_or_flags = hf hash (t.slots.getD i zeroSlot).key

/-! ### Concrete policy instantiations

Used to evaluate the model on concrete inputs.  Each is a legal
`SH_GEN_IMPL` instantiation: `cmpEq` is the `(a == b)` comparison of
`SH_GEN_HASH_IMPL`, `ingId`/`retZero` are its `key`/`0` put and delete
expressions, `hId` and `hZero` are admissible `key_hash_expr`s (any
expression yielding a `uint32_t` is allowed; a constant hash is consistent
with any equality).  The pair policy treats the first component as the key
identity, and its `key_put_expr` `ingTag` transforms the key on storage the
way `sh_strdup` in `SH_GEN_DICT_IMPL` replaces a string by a fresh copy
(observable here through the second component). -/

/-- Identity hash on `Nat` keys. -/
def hId : Nat → Nat := fun k => k

/-- Constant-zero hash on `Nat` keys (all keys collide). -/
def hZero : Nat → Nat := fun _ => 0

/-- `key_cmp_expr` of `SH_GEN_HASH_IMPL`: `(a == b)`. -/
def cmpEq : Nat → Nat → Bool := fun a b => a == b

/-- `key_put_expr` of `SH_GEN_HASH_IMPL`: `key`. -/
def ingId : Nat → Nat := fun k => k

/-- `key_del_expr` of `SH_GEN_HASH_IMPL`: `0`. -/
def retZero : Nat → Nat := fun _ => 0

/-- Constant-zero hash on pair keys. -/
def hPair : Nat × Nat → Nat := fun _ => 0

/-- Pair keys compared on their first component only (the second component
plays the role of the allocation identity of a duplicated string key). -/
def cmpFst : Nat × Nat → Nat × Nat → Bool := fun a b => a.1 == b.1

/-- A `key_put_expr` that returns a fresh variant of the key, as
`sh_strdup(key)` does for string keys: the key identity (first component)
is preserved, the storage identity (second component) changes. -/
def ingTag : Nat × Nat → Nat × Nat := fun k => (k.1, k.2 + 1)

/-- A `key_del_expr` returning the zero pair. -/
def retPair : Nat × Nat → Nat × Nat := fun _ => (0, 0)

/-! ### Concrete table states

Snapshots of tables produced by short operation sequences, used in the
concrete theorems below.  Each is the exact value computed by the model. -/

/-- `new(); put(1, 10)` with the identity hash. -/
def c1mid : SH Nat Nat :=
  ⟨1, 8, 0, [zeroSlot, ⟨2147483649, 1, 10⟩] ++ List.replicate 6 zeroSlot⟩

/-- `c1mid` after a second `put(1, 20)` of the same key. -/
def c1fin : SH Nat Nat :=
  ⟨2, 8, 0, [zeroSlot, ⟨2147483649, 1, 20⟩] ++ List.replicate 6 zeroSlot⟩

/-- `new(); put((7,0), 10)` with the pair policy: the stored key is
`ingTag (7, 0) = (7, 1)`. -/
def c2mid : SH (Nat × Nat) Nat :=
  ⟨1, 8, 0, ⟨2147483648, (7, 1), 10⟩ :: List.replicate 7 zeroSlot⟩

/-- `c2mid` after `put((7,5), 20)` of the same logical key `7`. -/
def c2fin : SH (Nat × Nat) Nat :=
  ⟨2, 8, 0, ⟨2147483648, (7, 6), 20⟩ :: List.replicate 7 zeroSlot⟩

/-- `new(); put(1, 10)` with the constant-zero hash. -/
def c4a : SH Nat Nat :=
  ⟨1, 8, 0, ⟨2147483648, 1, 10⟩ :: List.replicate 7 zeroSlot⟩

/-- `c4a` after `put(2, 20)` (collides, probes to slot 1). -/
def c4b : SH Nat Nat :=
  ⟨2, 8, 0, [⟨2147483648, 1, 10⟩, ⟨2147483648, 2, 20⟩] ++ List.replicate 6 zeroSlot⟩

/-- `c4b` after `del(1)` (slot 0 becomes a tombstone). -/
def c4c : SH Nat Nat :=
  ⟨1, 8, 1, [⟨1, 0, 10⟩, ⟨2147483648, 2, 20⟩] ++ List.replicate 6 zeroSlot⟩

/-- `c4c` after `put(2, 30)`: the probe stops at the tombstone in slot 0
before reaching the existing entry for key 2 in slot 1, so key 2 now
occupies two slots. -/
def c4dup : SH Nat Nat :=
  ⟨2, 8, 0, [⟨2147483648, 2, 30⟩, ⟨2147483648, 2, 20⟩] ++ List.replicate 6 zeroSlot⟩

/-- `c4dup` after `del(2)`: only the first of the two slots of key 2 is
removed; the stale second entry remains reachable. -/
def c4del : SH Nat Nat :=
  ⟨1, 8, 1, [⟨1, 0, 30⟩, ⟨2147483648, 2, 20⟩] ++ List.replicate 6 zeroSlot⟩

/-- `c4dup` resized to capacity 16: the two slots of key 2 merge, and the
re-insertion in physical slot order makes the *stale* value 20 win. -/
def c8res : SH Nat Nat :=
  ⟨2, 16, 0, ⟨2147483648, 2, 20⟩ :: List.replicate 15 zeroSlot⟩

/-- `c4del` after a *second* `del(2)`: the stale duplicate in slot 1 is
found and tombstoned as well, so the second delete also reports `true`. -/
def c4fin : SH Nat Nat :=
  ⟨0, 8, 2, [⟨1, 0, 30⟩, ⟨1, 0, 20⟩] ++ List.replicate 6 zeroSlot⟩

/-- `new()` followed by `put(i, 100 + i)` for `i = 0`. -/
def c7a : SH Nat Nat :=
  ⟨1, 8, 0, ⟨2147483648, 0, 100⟩ :: List.replicate 7 zeroSlot⟩

/-- ... and `i = 1`. -/
def c7b : SH Nat Nat :=
  ⟨2, 8, 0, [⟨2147483648, 0, 100⟩, ⟨2147483649, 1, 101⟩] ++ List.replicate 6 zeroSlot⟩

/-- ... and `i = 2`. -/
def c7c : SH Nat Nat :=
  ⟨3, 8, 0, [⟨2147483648, 0, 100⟩, ⟨2147483649, 1, 101⟩, ⟨2147483650, 2, 102⟩] ++
    List.replicate 5 zeroSlot⟩

/-- ... and `i = 3`. -/
def c7d : SH Nat Nat :=
  ⟨4, 8, 0, [⟨2147483648, 0, 100⟩, ⟨2147483649, 1, 101⟩, ⟨2147483650, 2, 102⟩,
    ⟨2147483651, 3, 103⟩] ++ List.replicate 4 zeroSlot⟩

/-- ... and `i = 4`: this fifth put grows the table to capacity 16. -/
def c7e : SH Nat Nat :=
  ⟨5, 16, 0, [⟨2147483648, 0, 100⟩, ⟨2147483649, 1, 101⟩, ⟨2147483650, 2, 102⟩,
    ⟨2147483651, 3, 103⟩, ⟨2147483652, 4, 104⟩] ++ List.replicate 11 zeroSlot⟩

/-- `c7e` after iterator-removal of slot 0. -/
def c7r1 : SH Nat Nat :=
  ⟨4, 16, 1, [⟨1, 0, 100⟩, ⟨2147483649, 1, 101⟩, ⟨2147483650, 2, 102⟩,
    ⟨2147483651, 3, 103⟩, ⟨2147483652, 4, 104⟩] ++ List.replicate 11 zeroSlot⟩

/-- `c7e` after iterator-removal of the slots 0 and 1. -/
def c7r2 : SH Nat Nat :=
  ⟨3, 16, 2, [⟨1, 0, 100⟩, ⟨1, 0, 101⟩, ⟨2147483650, 2, 102⟩,
    ⟨2147483651, 3, 103⟩, ⟨2147483652, 4, 104⟩] ++ List.replicate 11 zeroSlot⟩

/-- `c7e` after iterator-removal of the slots 0, 1 and 2. -/
def c7f : SH Nat Nat :=
  ⟨2, 16, 3, [⟨1, 0, 100⟩, ⟨1, 0, 101⟩, ⟨1, 0, 102⟩,
    ⟨2147483651, 3, 103⟩, ⟨2147483652, 4, 104⟩] ++ List.replicate 11 zeroSlot⟩

/-- `c7e` after iterator-removal of the slots 0 to 3: length 1 at capacity
16, so the table is far below the shrink threshold. -/
def c7state : SH Nat Nat :=
  ⟨1, 16, 4, [⟨1, 0, 100⟩, ⟨1, 0, 101⟩, ⟨1, 0, 102⟩, ⟨1, 0, 103⟩,
    ⟨2147483652, 4, 104⟩] ++ List.replicate 11 zeroSlot⟩

/-- A slot holding key `k` (identity hash) with value 0, as produced by
`put(k, 0)` on an `Nat`-keyed table using `hId`. -/
def fillSlot (k : Nat) : Slot Nat Nat := ⟨hf hId k, k, 0⟩

/-- Slot array of capacity `cap` whose first `n` slots hold the keys
`0, …, n-1` (identity hash) and whose remaining slots are free. -/
def prefixArr (n cap : Nat) : List (Slot Nat Nat) :=
  (List.range n).map fillSlot ++ List.replicate (cap - n) zeroSlot

/-- The table with keys `0, …, n-1` at capacity `cap`, as produced by
`new()` followed by `put(0,0); …; put(n-1,0)` whenever the growth policy
has taken the capacity to `cap`. -/
def prefixTable (n cap : Nat) : SH Nat Nat := ⟨n, cap, 0, prefixArr n cap⟩

/-! ## General lemmas about slot arrays -/

theorem getD_set_self {l : List (Slot α β)} {i : Nat} (s : Slot α β)
    (h : i < l.length) : (l.set i s).getD i zeroSlot = s := by
  induction l generalizing i with
  | nil => simp at h
  | cons a rest ih =>
    cases i with
    | zero => rfl
    | succ n => simpa using ih (i := n) (by simpa using h)

theorem getD_set_ne {l : List (Slot α β)} {i j : Nat} (s : Slot α β)
    (h : i ≠ j) : (l.set i s).getD j zeroSlot = l.getD j zeroSlot := by
  induction l generalizing i j with
  | nil => simp
  | cons a rest ih =>
    cases i with
    | zero =>
      cases j with
      | zero => exact absurd rfl h
      | succ m => simp
    | succ n =>
      cases j with
      | zero => simp
      | succ m => simpa using ih (i := n) (j := m) (fun hh => h (by rw [hh]))

theorem countHof_set {p : Nat → Bool} {l : List (Slot α β)} {i : Nat}
    (s : Slot α β) (h : i < l.length) :
    countHof p (l.set i s) + (if p ((l.getD i zeroSlot).hash_or_flags) then 1 else 0) =
      countHof p l + (if p s.hash_or_flags then 1 else 0) := by
  induction l generalizing i with
  | nil => simp at h
  | cons a rest ih =>
    cases i with
    | zero => simp [countHof]; omega
    | succ n =>
      have := ih (i := n) (by simpa using h)
      simp only [List.set, countHof, List.getD_cons_succ]
      omega

theorem countHof_replicate (p : Nat → Bool) (n : Nat) :
    countHof p (List.replicate n (zeroSlot (α := α) (β := β))) =
      n * (if p SH_SLOT_FREE then 1 else 0) := by
  induction n with
  | zero => simp [countHof]
  | succ m ih =>
    rw [List.replicate_succ]
    simp only [countHof, ih]
    have hz : (zeroSlot (α := α) (β := β)).hash_or_flags = SH_SLOT_FREE := rfl
    rw [hz]
    cases hp : p SH_SLOT_FREE <;> simp [hp] <;> omega

theorem countHof_le_length (p : Nat → Bool) (l : List (Slot α β)) :
    countHof p l ≤ l.length := by
  induction l with
  | nil => simp [countHof]
  | cons a rest ih => simp [countHof]; split <;> omega

theorem hof_trichotomy (h : Nat) :
    (if h == SH_SLOT_FREE then 1 else 0) + (if h == SH_SLOT_DELETED then 1 else 0) +
      (if isFilledHof h then 1 else 0) = 1 := by
  by_cases h0 : h = SH_SLOT_FREE
  · simp [h0, isFilledHof, SH_SLOT_FREE, SH_SLOT_DELETED]
  · by_cases h1 : h = SH_SLOT_DELETED
    · simp [h1, isFilledHof, SH_SLOT_FREE, SH_SLOT_DELETED]
    · simp [isFilledHof, h0, h1]

theorem count_partition (l : List (Slot α β)) :
    freeCount l + deletedCount l + filledCount l = l.length := by
  induction l with
  | nil => simp [freeCount, deletedCount, filledCount, countHof]
  | cons a rest ih =>
    have := hof_trichotomy a.hash_or_flags
    simp only [freeCount, deletedCount, filledCount, countHof, List.length_cons] at *
    omega

theorem countHof_pos_of_true {p : Nat → Bool} {l : List (Slot α β)} {i : Nat}
    (h : i < l.length) (hp : p ((l.getD i zeroSlot).hash_or_flags) = true) :
    0 < countHof p l := by
  induction l generalizing i with
  | nil => simp at h
  | cons a rest ih =>
    cases i with
    | zero => simp only [List.getD_cons_zero] at hp; simp [countHof, hp]
    | succ n =>
      have := ih (i := n) (by simpa using h) (by simpa using hp)
      simp [countHof]; omega

theorem exists_true_of_countHof_pos {p : Nat → Bool} {l : List (Slot α β)}
    (h : 0 < countHof p l) :
    ∃ i, i < l.length ∧ p ((l.getD i zeroSlot).hash_or_flags) = true := by
  induction l with
  | nil => simp [countHof] at h
  | cons a rest ih =>
    by_cases ha : p a.hash_or_flags = true
    · exact ⟨0, by simp, by simpa using ha⟩
    · have hh : 0 < countHof p rest := by
        simp only [countHof] at h
        simpa [ha] using h
      obtain ⟨i, hi, hpi⟩ := ih hh
      exact ⟨i + 1, by simpa using hi, by simpa using hpi⟩

/-! ## Characterization of the probe loop -/

theorem probeAux_some_spec {stop : Slot α β → Bool} {slots : List (Slot α β)}
    {cap : Nat} (hlen : slots.length = cap) :
    ∀ fuel start j, start < cap → probeAux stop slots cap fuel start = some j →
      ∃ n, n < fuel ∧ j = (start + n) % cap ∧
        stop (slots.getD j zeroSlot) = true ∧
        ∀ m, m < n → stop (slots.getD ((start + m) % cap) zeroSlot) = false := by
  intro fuel
  induction fuel with
  | zero => intro start j hs h; simp [probeAux] at h
  | succ f ih =>
    intro start j hs h
    have hlt : start < slots.length := hlen ▸ hs
    have hget : slots.get? start = some (slots.get ⟨start, hlt⟩) := List.get?_eq_get hlt
    simp only [probeAux, hget] at h
    have hgetD : slots.getD start zeroSlot = slots.get ⟨start, hlt⟩ := by
      simp [List.getD_eq_get?, List.getElem?_eq_getElem hlt]
    by_cases hstop : stop (slots.get ⟨start, hlt⟩) = true
    · rw [if_pos hstop] at h
      have hj : j = start := (Option.some.inj h).symm
      refine ⟨0, by omega, ?_, ?_, by omega⟩
      · rw [hj, Nat.add_zero, Nat.mod_eq_of_lt hs]
      · rw [hj, hgetD]; exact hstop
    · rw [if_neg hstop] at h
      obtain ⟨n, hn, hj, hstopj, hpath⟩ :=
        ih ((start + 1) % cap) j (Nat.mod_lt _ (by omega)) h
      refine ⟨n + 1, by omega, ?_, hstopj, ?_⟩
      · rw [hj, Nat.mod_add_mod]
        congr 1
        omega
      · intro m hm
        cases m with
        | zero =>
          rw [Nat.add_zero, Nat.mod_eq_of_lt hs, hgetD]
          exact Bool.eq_false_iff.mpr hstop
        | succ m' =>
          have := hpath m' (by omega)
          rwa [Nat.mod_add_mod, show (start + 1 + m') = start + (m' + 1) by omega] at this

theorem probeAux_eq_some_of {stop : Slot α β → Bool} {slots : List (Slot α β)}
    {cap : Nat} (hlen : slots.length = cap) :
    ∀ n fuel start, start < cap → n < fuel →
      stop (slots.getD ((start + n) % cap) zeroSlot) = true →
      (∀ m, m < n → stop (slots.getD ((start + m) % cap) zeroSlot) = false) →
      probeAux stop slots cap fuel start = some ((start + n) % cap) := by
  intro n
  induction n with
  | zero =>
    intro fuel start hs hfuel hstop _
    cases fuel with
    | zero => omega
    | succ f =>
      have hlt : start < slots.length := hlen ▸ hs
      have hget : slots.get? start = some slots[start] := by
        rw [List.get?_eq_getElem?, List.getElem?_eq_getElem hlt]
      have hgetD : slots.getD start zeroSlot = slots[start] := by
        rw [List.getD_eq_getElem?_getD, List.getElem?_eq_getElem hlt]
        rfl
      simp only [Nat.add_zero, Nat.mod_eq_of_lt hs, hgetD] at hstop
      simp only [probeAux, hget, Nat.add_zero, Nat.mod_eq_of_lt hs]
      rw [if_pos hstop]
  | succ n ih =>
    intro fuel start hs hfuel hstop hpath
    cases fuel with
    | zero => omega
    | succ f =>
      have hlt : start < slots.length := hlen ▸ hs
      have hget : slots.get? start = some slots[start] := by
        rw [List.get?_eq_getElem?, List.getElem?_eq_getElem hlt]
      have hgetD : slots.getD start zeroSlot = slots[start] := by
        rw [List.getD_eq_getElem?_getD, List.getElem?_eq_getElem hlt]
        rfl
      have hstop0 : stop slots[start] = false := by
        have h0 := hpath 0 (by omega)
        simp only [Nat.add_zero, Nat.mod_eq_of_lt hs, hgetD] at h0
        exact h0
      simp only [probeAux, hget]
      rw [if_neg (by simp [hstop0])]
      have hcap : 0 < cap := by omega
      have hrec := ih f ((start + 1) % cap) (Nat.mod_lt _ hcap) (by omega)
        (by rwa [Nat.mod_add_mod, show start + 1 + n = start + (n + 1) by omega])
        (by
          intro m hm
          have := hpath (m + 1) (by omega)
          rwa [Nat.mod_add_mod, show start + 1 + m = start + (m + 1) by omega])
      rw [hrec, Nat.mod_add_mod, show start + 1 + n = start + (n + 1) by omega]

theorem probeAux_succeeds {stop : Slot α β → Bool} {slots : List (Slot α β)}
    {cap : Nat} (hlen : slots.length = cap) {start : Nat} (hs : start < cap)
    (hex : ∃ i, i < cap ∧ stop (slots.getD i zeroSlot) = true) :
    ∃ j, probeAux stop slots cap cap start = some j := by
  obtain ⟨i, hi, hstop⟩ := hex
  have hcap : 0 < cap := by omega
  have hwit : (start + (cap + i - start) % cap) % cap = i := by
    rw [Nat.add_mod_mod, show start + (cap + i - start) = cap + i by omega,
      Nat.add_mod_left, Nat.mod_eq_of_lt hi]
  have hex2 : ∃ n, stop (slots.getD ((start + n) % cap) zeroSlot) = true :=
    ⟨(cap + i - start) % cap, by rw [hwit]; exact hstop⟩
  have hn₀lt : Nat.find hex2 < cap :=
    lt_of_le_of_lt (Nat.find_min' hex2 (by rw [hwit]; exact hstop)) (Nat.mod_lt _ hcap)
  exact ⟨(start + Nat.find hex2) % cap,
    probeAux_eq_some_of hlen (Nat.find hex2) cap start hs hn₀lt (Nat.find_spec hex2)
      (fun m hm => Bool.eq_false_iff.mpr (Nat.find_min hex2 hm))⟩

/-! ## The tagged hash and slot categories -/

theorem hf_testBit (hash : α → Nat) (k : α) : (hf hash k).testBit 31 = true := by
  have h2 : Nat.testBit SH_SLOT_FILLED 31 = true := by decide
  simp [hf, Nat.testBit_lor, h2]

theorem hf_ne_free (hash : α → Nat) (k : α) : hf hash k ≠ SH_SLOT_FREE := by
  intro h
  have hb := hf_testBit hash k
  rw [h] at hb
  exact absurd hb (by decide)

theorem hf_ne_deleted (hash : α → Nat) (k : α) : hf hash k ≠ SH_SLOT_DELETED := by
  intro h
  have hb := hf_testBit hash k
  rw [h] at hb
  exact absurd hb (by decide)

theorem isFilledHof_hf (hash : α → Nat) (k : α) : isFilledHof (hf hash k) = true := by
  simp only [isFilledHof, Bool.and_eq_true, Bool.not_eq_true']
  exact ⟨beq_eq_false_iff_ne.mpr (hf_ne_free hash k),
    beq_eq_false_iff_ne.mpr (hf_ne_deleted hash k)⟩

theorem isFilledHof_zero :
    isFilledHof ((zeroSlot (α := α) (β := β)).hash_or_flags) = false := rfl

theorem exists_false_of_countHof_lt {p : Nat → Bool} {l : List (Slot α β)}
    (h : countHof p l < l.length) :
    ∃ i, i < l.length ∧ p ((l.getD i zeroSlot).hash_or_flags) = false := by
  induction l with
  | nil => simp at h
  | cons a rest ih =>
    by_cases ha : p a.hash_or_flags = true
    · have hlt : countHof p rest < rest.length := by
        simp only [countHof, ha, if_true, List.length_cons] at h
        omega
      obtain ⟨i, hi, hpi⟩ := ih hlt
      exact ⟨i + 1, by simpa using hi, by simpa using hpi⟩
    · exact ⟨0, by simp, by simpa using Bool.eq_false_iff.mpr ha⟩

theorem putStop_true_of_not_filled {cmp : α → α → Bool} {h : Nat} {key : α}
    {s : Slot α β} (hs : isFilledHof s.hash_or_flags = false) :
    putStop cmp h key s = true := by
  by_cases h0 : (s.hash_or_flags == SH_SLOT_FREE) = true
  · simp [putStop, h0]
  · by_cases h1 : (s.hash_or_flags == SH_SLOT_DELETED) = true
    · simp [putStop, h1]
    · rw [isFilledHof, Bool.eq_false_iff.mpr h0, Bool.eq_false_iff.mpr h1] at hs
      simp at hs

/-- `uint32_t` increment is a plain increment below the modulus. -/
theorem inc32_eq {n : Nat} (h : n + 1 < u32) : inc32 n = n + 1 :=
  Nat.mod_eq_of_lt h

/-- `uint32_t` decrement is a plain decrement on positive values below the
modulus. -/
theorem dec32_eq {n : Nat} (h0 : 0 < n) (h1 : n < u32) : dec32 n = n - 1 := by
  rw [dec32, if_neg (by omega)]

/-! ## The probe of `put_ptr_internal` succeeds below full occupancy -/

theorem put_internal_full (hash : α → Nat) (cmp : α → α → Bool) (t : SH α β) (key : α)
    (hlen : t.slots.length = t.capacity) (hcap : 0 < t.capacity)
    (hfill : filledCount t.slots < t.capacity) :
    ∃ j n, j < t.capacity ∧
      sh_put_ptr_internal hash cmp t key = some (putInternalResult hash t key j, j) ∧
      putStop cmp (hf hash key) key (t.slots.getD j zeroSlot) = true ∧
      n < t.capacity ∧ j = (hf hash key % t.capacity + n) % t.capacity ∧
      (∀ m, m < n → putStop cmp (hf hash key) key
        (t.slots.getD ((hf hash key % t.capacity + m) % t.capacity) zeroSlot) = false) := by
  obtain ⟨i, hi, hnf⟩ :=
    exists_false_of_countHof_lt (p := isFilledHof) (l := t.slots)
      (by rw [hlen]; exact hfill)
  have hstop : putStop cmp (hf hash key) key (t.slots.getD i zeroSlot) = true :=
    putStop_true_of_not_filled hnf
  have hstart : hf hash key % t.capacity < t.capacity := Nat.mod_lt _ hcap
  obtain ⟨j, hj⟩ := probeAux_succeeds hlen hstart ⟨i, by omega, hstop⟩
  obtain ⟨n, hn, hjn, hstopj, hpath⟩ := probeAux_some_spec hlen _ _ _ hstart hj
  refine ⟨j, n, ?_, ?_, hstopj, hn, hjn, hpath⟩
  · rw [hjn]; exact Nat.mod_lt _ hcap
  · simp only [sh_put_ptr_internal, hj]

/-! ## Invariant preservation by `put_ptr_internal` -/

/-- Slot-count bookkeeping for writing a filled slot `s'` over slot `j`. -/
theorem counts_after_put {l : List (Slot α β)} {j : Nat} (hj : j < l.length)
    (s' : Slot α β) (hfil : isFilledHof s'.hash_or_flags = true)
    (hnd : (s'.hash_or_flags == SH_SLOT_DELETED) = false) :
    (isFilledHof (l.getD j zeroSlot).hash_or_flags = false →
      countHof isFilledHof (l.set j s') = countHof isFilledHof l + 1) ∧
    (isFilledHof (l.getD j zeroSlot).hash_or_flags = true →
      countHof isFilledHof (l.set j s') = countHof isFilledHof l) ∧
    (((l.getD j zeroSlot).hash_or_flags == SH_SLOT_DELETED) = true →
      countHof (fun h => h == SH_SLOT_DELETED) (l.set j s') =
        countHof (fun h => h == SH_SLOT_DELETED) l - 1 ∧
        0 < countHof (fun h => h == SH_SLOT_DELETED) l) ∧
    (((l.getD j zeroSlot).hash_or_flags == SH_SLOT_DELETED) = false →
      countHof (fun h => h == SH_SLOT_DELETED) (l.set j s') =
        countHof (fun h => h == SH_SLOT_DELETED) l) := by
  refine ⟨?_, ?_, ?_, ?_⟩
  · intro hold
    have hh := countHof_set (p := isFilledHof) (l := l) s' hj
    rw [hold, hfil] at hh
    simpa using hh
  · intro hold
    have hh := countHof_set (p := isFilledHof) (l := l) s' hj
    rw [hold, hfil] at hh
    simp at hh
    omega
  · intro hold
    have hpos : 0 < countHof (fun h => h == SH_SLOT_DELETED) l :=
      countHof_pos_of_true hj hold
    have hh := countHof_set (p := fun h => h == SH_SLOT_DELETED) (l := l) s' hj
    simp only [hold, hnd] at hh
    simp at hh
    omega
  · intro hold
    have hh := countHof_set (p := fun h => h == SH_SLOT_DELETED) (l := l) s' hj
    simp only [hold, hnd] at hh
    simpa using hh

theorem inv_put_internal (hash : α → Nat) (cmp : α → α → Bool) {t : SH α β} (key : α)
    (inv : Inv hash t) (hroom : t.length + t.deleted + 1 ≤ t.capacity / 2) :
    ∃ j, sh_put_ptr_internal hash cmp t key = some (putInternalResult hash t key j, j) ∧
      j < t.capacity ∧ Inv hash (putInternalResult hash t key j) ∧
      (putInternalResult hash t key j).length = t.length + 1 ∧
      (putInternalResult hash t key j).capacity = t.capacity ∧
      (putInternalResult hash t key j).length + (putInternalResult hash t key j).deleted ≤
        t.length + t.deleted + 1 := by
  have hcap : 0 < t.capacity := by have := inv.cap_ge; omega
  have hhalf : t.capacity / 2 ≤ 2 ^ 30 := by have := inv.cap_le; omega
  have hfill : filledCount t.slots < t.capacity := by
    have h1 := inv.filled_le
    have h2 := inv.load
    omega
  obtain ⟨j, n, hjcap, heq, hstopj, hn, hjn, hpath⟩ :=
    put_internal_full hash cmp t key inv.slots_len hcap hfill
  have hjlen : j < t.slots.length := by rw [inv.slots_len]; exact hjcap
  have hlu : t.length + 1 < u32 := by have := inv.load; simp only [u32]; omega
  have hlen' : (putInternalResult hash t key j).length = t.length + 1 := by
    show inc32 t.length = t.length + 1
    exact inc32_eq hlu
  have hslots : (putInternalResult hash t key j).slots =
      t.slots.set j ⟨hf hash key, key, (t.slots.getD j zeroSlot).value⟩ := rfl
  have hcapeq : (putInternalResult hash t key j).capacity = t.capacity := rfl
  have hfilled_new : isFilledHof (hf hash key) = true := isFilledHof_hf hash key
  have hdel_new : ((hf hash key : Nat) == SH_SLOT_DELETED) = false :=
    beq_eq_false_iff_ne.mpr (hf_ne_deleted hash key)
  obtain ⟨hcA, hcB, hcC, hcD⟩ :=
    counts_after_put (l := t.slots) hjlen
      ⟨hf hash key, key, (t.slots.getD j zeroSlot).value⟩ hfilled_new hdel_new
  have hconsist : ∀ i, i < (putInternalResult hash t key j).slots.length →
      isFilledHof ((putInternalResult hash t key j).slots.getD i zeroSlot).hash_or_flags = true →
      ((putInternalResult hash t key j).slots.getD i zeroSlot).hash_or_flags =
        hf hash ((putInternalResult hash t key j).slots.getD i zeroSlot).key := by
    intro i hilen hfil
    rw [hslots] at hilen hfil ⊢
    by_cases hij : j = i
    · subst hij
      rw [getD_set_self _ hjlen]
    · rw [getD_set_ne _ hij] at hfil ⊢
      exact inv.hash_consistent i (by simpa using hilen) hfil
  have hslen : (putInternalResult hash t key j).slots.length = t.capacity := by
    rw [hslots]
    simpa using inv.slots_len
  by_cases hdel : ((t.slots.getD j zeroSlot).hash_or_flags == SH_SLOT_DELETED) = true
  · -- the probe reused a tombstone
    obtain ⟨hcnt_del, hcnt_pos⟩ := hcC hdel
    have hdel_field : 0 < t.deleted := by
      have := inv.deleted_eq
      simp only [deletedCount] at this
      omega
    have hd32 : t.deleted < u32 := by have := inv.load; simp only [u32]; omega
    have hdec : (putInternalResult hash t key j).deleted = t.deleted - 1 := by
      show (if (t.slots.getD j zeroSlot).hash_or_flags == SH_SLOT_DELETED then
        dec32 t.deleted else t.deleted) = t.deleted - 1
      rw [if_pos hdel]
      exact dec32_eq hdel_field hd32
    have hold_nf : isFilledHof (t.slots.getD j zeroSlot).hash_or_flags = false := by
      rw [beq_iff_eq.mp hdel]
      decide
    have hfc : countHof isFilledHof (putInternalResult hash t key j).slots =
        countHof isFilledHof t.slots + 1 := by
      rw [hslots]
      exact hcA hold_nf
    have hdc : countHof (fun h => h == SH_SLOT_DELETED)
        (putInternalResult hash t key j).slots = t.deleted - 1 := by
      rw [hslots, hcnt_del]
      have := inv.deleted_eq
      simp only [deletedCount] at this
      omega
    refine ⟨j, heq, hjcap, ?_, hlen', hcapeq, ?_⟩
    · refine { slots_len := hslen
               cap_ge := inv.cap_ge
               cap_le := inv.cap_le
               cap_pow := inv.cap_pow
               filled_le := ?_
               deleted_eq := ?_
               load := ?_
               hash_consistent := hconsist }
      · show countHof isFilledHof (putInternalResult hash t key j).slots ≤ _
        rw [hfc, hlen']
        have := inv.filled_le
        simp only [filledCount] at this
        omega
      · show countHof (fun h => h == SH_SLOT_DELETED)
          (putInternalResult hash t key j).slots = _
        rw [hdc, hdec]
      · rw [hlen', hdec, hcapeq]
        have := inv.load
        omega
    · rw [hlen', hdec]
      omega
  · -- the target slot was free, or held an existing entry of the key
    have hdelF : ((t.slots.getD j zeroSlot).hash_or_flags == SH_SLOT_DELETED) = false :=
      Bool.eq_false_iff.mpr hdel
    have hsame : (putInternalResult hash t key j).deleted = t.deleted := by
      show (if (t.slots.getD j zeroSlot).hash_or_flags == SH_SLOT_DELETED then
        dec32 t.deleted else t.deleted) = t.deleted
      rw [if_neg (by rw [hdelF]; exact Bool.false_ne_true)]
    have hdc : countHof (fun h => h == SH_SLOT_DELETED)
        (putInternalResult hash t key j).slots = t.deleted := by
      rw [hslots, hcD hdelF]
      have := inv.deleted_eq
      simp only [deletedCount] at this
      omega
    have hfc : countHof isFilledHof (putInternalResult hash t key j).slots ≤
        countHof isFilledHof t.slots + 1 := by
      rw [hslots]
      by_cases hof : isFilledHof (t.slots.getD j zeroSlot).hash_or_flags = true
      · rw [hcB hof]; omega
      · rw [hcA (Bool.eq_false_iff.mpr hof)]
    refine ⟨j, heq, hjcap, ?_, hlen', hcapeq, ?_⟩
    · refine { slots_len := hslen
               cap_ge := inv.cap_ge
               cap_le := inv.cap_le
               cap_pow := inv.cap_pow
               filled_le := ?_
               deleted_eq := ?_
               load := ?_
               hash_consistent := hconsist }
      · show countHof isFilledHof (putInternalResult hash t key j).slots ≤ _
        rw [hlen']
        have := inv.filled_le
        simp only [filledCount] at this
        omega
      · show countHof (fun h => h == SH_SLOT_DELETED)
          (putInternalResult hash t key j).slots = _
        rw [hdc, hsame]
      · rw [hlen', hsame, hcapeq]
        omega
    · rw [hlen', hsame]
      omega

/-! ## Value writes through the returned pointer -/

theorem countHof_writeValue (p : Nat → Bool) (t : SH α β) {i : Nat} (v : β)
    (hi : i < t.slots.length) :
    countHof p (writeValue t i v).slots = countHof p t.slots := by
  have h := countHof_set (p := p) (l := t.slots)
    ⟨(t.slots.getD i zeroSlot).hash_or_flags, (t.slots.getD i zeroSlot).key, v⟩ hi
  have hproj : (Slot.mk (t.slots.getD i zeroSlot).hash_or_flags
      (t.slots.getD i zeroSlot).key v).hash_or_flags =
      (t.slots.getD i zeroSlot).hash_or_flags := rfl
  rw [hproj] at h
  show countHof p (t.slots.set i ⟨(t.slots.getD i zeroSlot).hash_or_flags,
    (t.slots.getD i zeroSlot).key, v⟩) = countHof p t.slots
  omega

theorem writeValue_getD_ne (t : SH α β) {i j : Nat} (v : β) (h : i ≠ j) :
    (writeValue t i v).slots.getD j zeroSlot = t.slots.getD j zeroSlot :=
  getD_set_ne _ h

theorem writeValue_getD_self (t : SH α β) {i : Nat} (v : β) (hi : i < t.slots.length) :
    (writeValue t i v).slots.getD i zeroSlot =
      ⟨(t.slots.getD i zeroSlot).hash_or_flags, (t.slots.getD i zeroSlot).key, v⟩ :=
  getD_set_self _ hi

theorem writeValue_consist (hash : α → Nat) (t : SH α β) {i : Nat} (v : β)
    (hi : i < t.slots.length)
    (hcons : ∀ k, k < t.slots.length →
      isFilledHof (t.slots.getD k zeroSlot).hash_or_flags = true →
      (t.slots.getD k zeroSlot).hash_or_flags = hf hash (t.slots.getD k zeroSlot).key) :
    ∀ k, k < (writeValue t i v).slots.length →
      isFilledHof ((writeValue t i v).slots.getD k zeroSlot).hash_or_flags = true →
      ((writeValue t i v).slots.getD k zeroSlot).hash_or_flags =
        hf hash ((writeValue t i v).slots.getD k zeroSlot).key := by
  intro k hk hfil
  have hk' : k < t.slots.length := by simpa [writeValue] using hk
  by_cases hik : i = k
  · subst hik
    rw [writeValue_getD_self t v hi] at hfil ⊢
    exact hcons i hi hfil
  · rw [writeValue_getD_ne t v hik] at hfil ⊢
    exact hcons k hk' hfil

theorem inv_writeValue (hash : α → Nat) {t : SH α β} (inv : Inv hash t)
    {i : Nat} (v : β) (hi : i < t.slots.length) :
    Inv hash (writeValue t i v) :=
  { slots_len := by simpa [writeValue] using inv.slots_len
    cap_ge := inv.cap_ge
    cap_le := inv.cap_le
    cap_pow := inv.cap_pow
    filled_le := by
      show countHof isFilledHof (writeValue t i v).slots ≤ _
      rw [countHof_writeValue _ t v hi]
      exact inv.filled_le
    deleted_eq := by
      show countHof _ (writeValue t i v).slots = _
      rw [countHof_writeValue _ t v hi]
      exact inv.deleted_eq
    load := inv.load
    hash_consistent := writeValue_consist hash t v hi inv.hash_consistent }

/-! ## The re-insertion loop of `resize` -/

theorem getD_replicate (n i : Nat) :
    ((List.replicate n (zeroSlot (α := α) (β := β))).getD i zeroSlot) = zeroSlot := by
  induction n generalizing i with
  | zero => simp [List.replicate]
  | succ m ih =>
    rw [List.replicate_succ]
    cases i with
    | zero => rfl
    | succ k => simpa using ih k

theorem reinsert_spec (hash : α → Nat) (cmp : α → α → Bool) :
    ∀ (l : List (Slot α β)) (u : SH α β),
    u.slots.length = u.capacity →
    u.deleted = 0 →
    deletedCount u.slots = 0 →
    (∀ i, i < u.slots.length → isFilledHof (u.slots.getD i zeroSlot).hash_or_flags = true →
      (u.slots.getD i zeroSlot).hash_or_flags = hf hash (u.slots.getD i zeroSlot).key) →
    filledCount u.slots + countHof isFilledHof l ≤ u.capacity →
    u.length + countHof isFilledHof l < u32 →
    ∃ u', reinsert hash cmp l u = some u' ∧
      u'.capacity = u.capacity ∧ u'.slots.length = u.capacity ∧
      u'.deleted = 0 ∧ deletedCount u'.slots = 0 ∧
      u'.length = u.length + countHof isFilledHof l ∧
      filledCount u'.slots ≤ filledCount u.slots + countHof isFilledHof l ∧
      (∀ i, i < u'.slots.length → isFilledHof (u'.slots.getD i zeroSlot).hash_or_flags = true →
        (u'.slots.getD i zeroSlot).hash_or_flags = hf hash (u'.slots.getD i zeroSlot).key) := by
  intro l
  induction l with
  | nil =>
    intro u hlen hdel0 hdcnt0 hcons hfit h32
    exact ⟨u, rfl, rfl, hlen, hdel0, hdcnt0, by simp [countHof], by simp [countHof], hcons⟩
  | cons s rest ih =>
    intro u hlen hdel0 hdcnt0 hcons hfit h32
    by_cases hfil : isFilledHof s.hash_or_flags = true
    · have hcount : countHof isFilledHof (s :: rest) = 1 + countHof isFilledHof rest := by
        simp [countHof, hfil]
      rw [hcount] at hfit h32
      have hcap : 0 < u.capacity := by omega
      have hfill : filledCount u.slots < u.capacity := by omega
      obtain ⟨j, n, hjcap, heq, hstopj, hn, hjn, hpath⟩ :=
        put_internal_full hash cmp u s.key hlen hcap hfill
      have hjlen : j < u.slots.length := by omega
      -- the fresh table has no tombstones, so the target slot is not deleted
      have hnotdel : ((u.slots.getD j zeroSlot).hash_or_flags == SH_SLOT_DELETED) = false := by
        by_contra hcontra
        have : ((u.slots.getD j zeroSlot).hash_or_flags == SH_SLOT_DELETED) = true := by
          cases hx : (u.slots.getD j zeroSlot).hash_or_flags == SH_SLOT_DELETED
          · exact absurd hx hcontra
          · rfl
        have hpos : 0 < deletedCount u.slots :=
          countHof_pos_of_true hjlen this
        omega
      have hfilled_new : isFilledHof (hf hash s.key) = true := isFilledHof_hf hash s.key
      have hdel_new : ((hf hash s.key : Nat) == SH_SLOT_DELETED) = false :=
        beq_eq_false_iff_ne.mpr (hf_ne_deleted hash s.key)
      obtain ⟨hcA, hcB, _, hcD⟩ :=
        counts_after_put (l := u.slots) hjlen
          ⟨hf hash s.key, s.key, (u.slots.getD j zeroSlot).value⟩ hfilled_new hdel_new
      have hslots1 : (putInternalResult hash u s.key j).slots =
          u.slots.set j ⟨hf hash s.key, s.key, (u.slots.getD j zeroSlot).value⟩ := rfl
      have hlen1 : (putInternalResult hash u s.key j).length = u.length + 1 := by
        show inc32 u.length = u.length + 1
        exact inc32_eq (by omega)
      have hdel1 : (putInternalResult hash u s.key j).deleted = 0 := by
        show (if (u.slots.getD j zeroSlot).hash_or_flags == SH_SLOT_DELETED then
          dec32 u.deleted else u.deleted) = 0
        rw [if_neg (by rw [hnotdel]; exact Bool.false_ne_true)]
        exact hdel0
      have hslen1 : (putInternalResult hash u s.key j).slots.length = u.capacity := by
        rw [hslots1]
        simpa using hlen
      have hdcnt1 : deletedCount (putInternalResult hash u s.key j).slots = 0 := by
        show countHof _ (putInternalResult hash u s.key j).slots = 0
        rw [hslots1, hcD hnotdel]
        exact hdcnt0
      have hfcnt1 : filledCount (putInternalResult hash u s.key j).slots ≤
          filledCount u.slots + 1 := by
        show countHof isFilledHof (putInternalResult hash u s.key j).slots ≤
          countHof isFilledHof u.slots + 1
        rw [hslots1]
        by_cases hof : isFilledHof (u.slots.getD j zeroSlot).hash_or_flags = true
        · rw [hcB hof]; omega
        · rw [hcA (Bool.eq_false_iff.mpr hof)]
      have hcons1 : ∀ i, i < (putInternalResult hash u s.key j).slots.length →
          isFilledHof ((putInternalResult hash u s.key j).slots.getD i zeroSlot).hash_or_flags = true →
          ((putInternalResult hash u s.key j).slots.getD i zeroSlot).hash_or_flags =
            hf hash ((putInternalResult hash u s.key j).slots.getD i zeroSlot).key := by
        intro i hilen hfil2
        rw [hslots1] at hilen hfil2 ⊢
        by_cases hij : j = i
        · subst hij
          rw [getD_set_self _ hjlen]
        · rw [getD_set_ne _ hij] at hfil2 ⊢
          exact hcons i (by simpa using hilen) hfil2
      -- now write the value and recurse
      set u₂ := writeValue (putInternalResult hash u s.key j) j s.value with hu₂
      have hjlen2 : j < (putInternalResult hash u s.key j).slots.length := by
        rw [hslen1]; exact hjcap
      have hlen2 : u₂.slots.length = u.capacity := by
        rw [hu₂]; simpa [writeValue] using hslen1
      have hcnt2 := fun p => countHof_writeValue p (putInternalResult hash u s.key j)
        (i := j) s.value hjlen2
      obtain ⟨u', hrec, hc1, hc2, hc3, hc4, hc5, hc6, hc7⟩ :=
        ih u₂ (by rw [hlen2]; rfl)
          (by rw [hu₂]; exact hdel1)
          (by show countHof _ u₂.slots = 0; rw [hu₂, hcnt2]; exact hdcnt1)
          (by rw [hu₂]; exact writeValue_consist hash _ s.value hjlen2 hcons1)
          (by
            show countHof _ u₂.slots + _ ≤ u₂.capacity
            rw [hu₂, hcnt2]
            show filledCount _ + _ ≤ (putInternalResult hash u s.key j).capacity
            have : (putInternalResult hash u s.key j).capacity = u.capacity := rfl
            rw [this]
            omega)
          (by
            show u₂.length + _ < u32
            rw [hu₂]
            show (putInternalResult hash u s.key j).length + _ < u32
            rw [hlen1]
            omega)
      refine ⟨u', ?_, ?_, ?_, hc3, hc4, ?_, ?_, hc7⟩
      · show reinsert hash cmp (s :: rest) u = some u'
        simp only [reinsert, if_pos hfil, heq]
        exact hrec
      · rw [hc1, hu₂]; rfl
      · rw [hc2, hu₂]; rfl
      · rw [hc5, hcount, hu₂]
        show (putInternalResult hash u s.key j).length + _ = _
        rw [hlen1]
        omega
      · rw [hcount]
        have hwv : filledCount u₂.slots = filledCount (putInternalResult hash u s.key j).slots := by
          rw [hu₂]; exact hcnt2 isFilledHof
        have : u₂.capacity = u.capacity := by rw [hu₂]; rfl
        calc filledCount u'.slots
            ≤ filledCount u₂.slots + countHof isFilledHof rest := hc6
          _ = filledCount (putInternalResult hash u s.key j).slots +
              countHof isFilledHof rest := by rw [hwv]
          _ ≤ filledCount u.slots + 1 + countHof isFilledHof rest := by omega
          _ = filledCount u.slots + (1 + countHof isFilledHof rest) := by omega
    · have hcount : countHof isFilledHof (s :: rest) = countHof isFilledHof rest := by
        simp [countHof, Bool.eq_false_iff.mpr hfil]
      rw [hcount] at hfit h32
      obtain ⟨u', hrec, hc1, hc2, hc3, hc4, hc5, hc6, hc7⟩ :=
        ih u hlen hdel0 hdcnt0 hcons hfit h32
      refine ⟨u', ?_, hc1, hc2, hc3, hc4, by rw [hc5, hcount], by rw [hcount]; exact hc6, hc7⟩
      show reinsert hash cmp (s :: rest) u = some u'
      simp only [reinsert, if_neg hfil]
      exact hrec

/-! ## Successful `resize` -/

theorem resize_success (hash : α → Nat) (cmp : α → α → Bool) (t : SH α β) (nc : Nat)
    (hguard : ¬ nc < t.length)
    (hfit : filledCount t.slots ≤ nc)
    (h32 : filledCount t.slots < u32) :
    ∃ t', sh_resize hash cmp true t nc = some (true, t') ∧
      t'.capacity = nc ∧ t'.slots.length = nc ∧ t'.deleted = 0 ∧
      deletedCount t'.slots = 0 ∧ t'.length = filledCount t.slots ∧
      filledCount t'.slots ≤ filledCount t.slots ∧
      (∀ i, i < t'.slots.length → isFilledHof (t'.slots.getD i zeroSlot).hash_or_flags = true →
        (t'.slots.getD i zeroSlot).hash_or_flags = hf hash (t'.slots.getD i zeroSlot).key) := by
  have hz : isFilledHof SH_SLOT_FREE = false := by decide
  have hfc0 : filledCount (List.replicate nc (zeroSlot (α := α) (β := β))) = 0 := by
    show countHof _ _ = 0
    rw [countHof_replicate, hz]
    simp
  have hdc0 : deletedCount (List.replicate nc (zeroSlot (α := α) (β := β))) = 0 := by
    show countHof _ _ = 0
    rw [countHof_replicate]
    simp [show ((SH_SLOT_FREE == SH_SLOT_DELETED)) = false from by decide]
  obtain ⟨u', hrec, hc1, hc2, hc3, hc4, hc5, hc6, hc7⟩ :=
    reinsert_spec hash cmp t.slots (⟨0, nc, 0, List.replicate nc zeroSlot⟩ : SH α β)
      (by simp) rfl hdc0
      (by
        intro i hi hfil
        rw [getD_replicate, isFilledHof_zero] at hfil
        exact absurd hfil Bool.false_ne_true)
      (by
        show filledCount _ + countHof _ _ ≤ nc
        rw [hfc0]
        simpa using hfit)
      (by
        show (0 : Nat) + countHof _ _ < u32
        simpa using h32)
  refine ⟨u', ?_, by simpa using hc1, by simpa using hc2, hc3, hc4,
    by simpa using hc5, ?_, hc7⟩
  · show sh_resize hash cmp true t nc = some (true, u')
    simp only [sh_resize, if_neg hguard, hrec]
    simp
  · calc filledCount u'.slots
        ≤ filledCount (List.replicate nc (zeroSlot (α := α) (β := β))) +
          countHof isFilledHof t.slots := hc6
      _ = filledCount t.slots := by rw [hfc0]; simp [filledCount]

/-! ## The shrink policy -/

theorem shrinkLoop_spec (len : Nat) :
    ∀ fuel nc, nc ≤ fuel + 8 → 8 ≤ nc → (∃ k, nc = 2 ^ k) →
      8 ≤ shrinkLoop len fuel nc ∧ (∃ k, shrinkLoop len fuel nc = 2 ^ k) ∧
      shrinkLoop len fuel nc ≤ nc ∧
      (4 * len ≥ shrinkLoop len fuel nc ∨ shrinkLoop len fuel nc = 8) ∧
      (shrinkLoop len fuel nc < nc → 2 * len < shrinkLoop len fuel nc) := by
  intro fuel
  induction fuel with
  | zero =>
    intro nc hle h8 hpow
    have : nc = 8 := by omega
    subst this
    refine ⟨le_refl _, hpow, le_refl _, Or.inr rfl, ?_⟩
    intro h
    rw [show shrinkLoop len 0 8 = 8 from rfl] at h
    omega
  | succ f ih =>
    intro nc hle h8 hpow
    by_cases hcond : 4 * len < nc ∧ 8 < nc
    · have hstep : shrinkLoop len (f + 1) nc = shrinkLoop len f (nc / 2) := by
        simp only [shrinkLoop, if_pos hcond]
      obtain ⟨k, hk⟩ := hpow
      have hk4 : 4 ≤ k := by
        by_contra hlt
        interval_cases k <;> omega
      have h2 : (2 : Nat) ^ k = 2 ^ (k - 1) * 2 := by
        conv_lhs => rw [show k = (k - 1) + 1 from by omega]
        rw [pow_succ]
      have hhalf : nc / 2 = 2 ^ (k - 1) := by
        rw [hk, h2]
        omega
      have h8' : 8 ≤ nc / 2 := by
        rw [hhalf]
        calc (8 : Nat) = 2 ^ 3 := by norm_num
          _ ≤ 2 ^ (k - 1) := Nat.pow_le_pow_right (by norm_num) (by omega)
      obtain ⟨i1, i2, i3, i4, i5⟩ := ih (nc / 2) (by omega) h8' ⟨k - 1, hhalf⟩
      rw [hstep]
      refine ⟨i1, i2, by omega, i4, ?_⟩
      intro hlt
      by_cases heq2 : shrinkLoop len f (nc / 2) < nc / 2
      · exact i5 heq2
      · have heq3 : shrinkLoop len f (nc / 2) = nc / 2 := by omega
        rw [heq3, hhalf]
        have h41 := hcond.1
        rw [hk, h2] at h41
        omega
    · have hstep : shrinkLoop len (f + 1) nc = nc := by
        simp only [shrinkLoop, if_neg hcond]
      rw [hstep]
      refine ⟨h8, hpow, le_refl _, ?_, by omega⟩
      rcases Decidable.not_and_iff_or_not.mp hcond with h | h
      · exact Or.inl (by omega)
      · exact Or.inr (by omega)

theorem inv_shrink (hash : α → Nat) (cmp : α → α → Bool) {t : SH α β} (inv : Inv hash t) :
    ∃ b t', sh_shrink_if_necessary hash cmp true t = some (b, t') ∧ Inv hash t' ∧
      t'.length ≤ t.length ∧ t'.length + t'.deleted ≤ t.length + t.deleted := by
  obtain ⟨s1, s2, s3, s4, s5⟩ :=
    shrinkLoop_spec t.length t.capacity t.capacity (by omega) inv.cap_ge inv.cap_pow
  by_cases hlt : shrinkLoop t.length t.capacity t.capacity < t.capacity
  · have hlen2 : 2 * t.length < shrinkLoop t.length t.capacity t.capacity := s5 hlt
    have hguard : ¬ shrinkLoop t.length t.capacity t.capacity < t.length := by omega
    obtain ⟨t', hres, r1, r2, r3, r4, r5, r6, r7⟩ :=
      resize_success hash cmp t (shrinkLoop t.length t.capacity t.capacity) hguard
        (by have := inv.filled_le; omega)
        (by have := inv.filled_le; have := inv.load; have := inv.cap_le
            simp only [u32]; omega)
    refine ⟨true, t', ?_, ?_, ?_, ?_⟩
    · simp only [sh_shrink_if_necessary, if_pos hlt, hres]
    · refine { slots_len := by rw [r2, r1]
               cap_ge := by rw [r1]; exact s1
               cap_le := by rw [r1]; exact le_trans s3 inv.cap_le
               cap_pow := by rw [r1]; exact s2
               filled_le := by rw [r5]; exact r6
               deleted_eq := by rw [r3]; exact r4
               load := ?_
               hash_consistent := r7 }
      rw [r5, r3, r1]
      have := inv.filled_le
      omega
    · rw [r5]; exact inv.filled_le
    · rw [r5, r3]
      have := inv.filled_le
      omega
  · refine ⟨false, t, ?_, inv, le_refl _, le_refl _⟩
    simp only [sh_shrink_if_necessary, if_neg hlt]

/-! ## The fresh table -/

theorem sh_new_eq (hash : α → Nat) (cmp : α → α → Bool) :
    sh_new (α := α) (β := β) hash cmp true = ⟨0, 8, 0, List.replicate 8 zeroSlot⟩ := rfl

theorem inv_new (hash : α → Nat) (cmp : α → α → Bool) :
    Inv hash (sh_new (α := α) (β := β) hash cmp true) := by
  rw [sh_new_eq]
  refine { slots_len := by simp
           cap_ge := by norm_num
           cap_le := by norm_num
           cap_pow := ⟨3, rfl⟩
           filled_le := ?_
           deleted_eq := ?_
           load := by norm_num
           hash_consistent := ?_ }
  · show countHof _ _ ≤ 0
    rw [countHof_replicate]
    simp [show isFilledHof SH_SLOT_FREE = false from by decide]
  · show countHof _ _ = 0
    rw [countHof_replicate]
    simp [show ((SH_SLOT_FREE == SH_SLOT_DELETED)) = false from by decide]
  · intro i hi hfil
    rw [getD_replicate, isFilledHof_zero] at hfil
    exact absurd hfil Bool.false_ne_true

/-! ## Inversion lemmas for the probe-based operations -/

theorem put_internal_inversion {hash : α → Nat} {cmp : α → α → Bool}
    {t : SH α β} {key : α} {t₁ : SH α β} {j : Nat}
    (h : sh_put_ptr_internal hash cmp t key = some (t₁, j)) :
    probeAux (putStop cmp (hf hash key) key) t.slots t.capacity t.capacity
      (hf hash key % t.capacity) = some j ∧ t₁ = putInternalResult hash t key j := by
  rcases hpe : probeAux (putStop cmp (hf hash key) key) t.slots t.capacity t.capacity
      (hf hash key % t.capacity) with _ | p
  · simp only [sh_put_ptr_internal, hpe] at h
    exact Option.noConfusion h
  · simp only [sh_put_ptr_internal, hpe, Option.some.injEq, Prod.mk.injEq] at h
    obtain ⟨h1, h2⟩ := h
    subst h2
    exact ⟨rfl, h1.symm⟩

theorem put_internal_cap0 (hash : α → Nat) (cmp : α → α → Bool)
    {t : SH α β} (key : α) (hcap : t.capacity = 0) :
    sh_put_ptr_internal hash cmp t key = none := by
  simp only [sh_put_ptr_internal, hcap, probeAux]

theorem get_ptr_inversion {hash : α → Nat} {cmp : α → α → Bool}
    {t : SH α β} {k : α} {j : Nat}
    (h : sh_get_ptr hash cmp t k = some (some j)) :
    probeAux (getStop cmp (hf hash k) k) t.slots t.capacity t.capacity
      (hf hash k % t.capacity) = some j ∧
    ((t.slots.getD j zeroSlot).hash_or_flags == SH_SLOT_FREE) = false := by
  rcases hpe : probeAux (getStop cmp (hf hash k) k) t.slots t.capacity t.capacity
      (hf hash k % t.capacity) with _ | p
  · simp only [sh_get_ptr, hpe] at h
    exact Option.noConfusion h
  · simp only [sh_get_ptr, hpe] at h
    by_cases hfree : ((t.slots.getD p zeroSlot).hash_or_flags == SH_SLOT_FREE) = true
    · rw [if_pos hfree] at h
      simp at h
    · rw [if_neg hfree] at h
      simp only [Option.some.injEq] at h
      subst h
      exact ⟨rfl, Bool.eq_false_iff.mpr hfree⟩

/-! ## Tombstoning a slot (`del` / `remove`) -/

theorem counts_after_tombstone {l : List (Slot α β)} {j : Nat} (hj : j < l.length)
    (s' : Slot α β) (hdel : (s'.hash_or_flags == SH_SLOT_DELETED) = true)
    (hfil : isFilledHof (l.getD j zeroSlot).hash_or_flags = true) :
    countHof isFilledHof (l.set j s') = countHof isFilledHof l - 1 ∧
    0 < countHof isFilledHof l ∧
    countHof (fun h => h == SH_SLOT_DELETED) (l.set j s') =
      countHof (fun h => h == SH_SLOT_DELETED) l + 1 := by
  have hfil' : isFilledHof s'.hash_or_flags = false := by
    rw [beq_iff_eq.mp hdel]
    decide
  have holddel : ((l.getD j zeroSlot).hash_or_flags == SH_SLOT_DELETED) = false := by
    simp only [isFilledHof, Bool.and_eq_true, Bool.not_eq_true'] at hfil
    exact hfil.2
  have hpos : 0 < countHof isFilledHof l := countHof_pos_of_true hj hfil
  refine ⟨?_, hpos, ?_⟩
  · have hh := countHof_set (p := isFilledHof) (l := l) s' hj
    rw [hfil, hfil'] at hh
    simp at hh
    omega
  · have hh := countHof_set (p := fun h => h == SH_SLOT_DELETED) (l := l) s' hj
    simp only [holddel, hdel] at hh
    simp at hh
    omega

set_option maxRecDepth 4000 in
theorem inv_delAt (hash : α → Nat) (retire : α → α) {t : SH α β} {j : Nat}
    (inv : Inv hash t) (hj : j < t.capacity)
    (hfil : isFilledHof (t.slots.getD j zeroSlot).hash_or_flags = true) :
    Inv hash (delAt retire t j) ∧ (delAt retire t j).length = t.length - 1 ∧
      (delAt retire t j).deleted = t.deleted + 1 ∧ 0 < t.length := by
  have hjlen : j < t.slots.length := by rw [inv.slots_len]; exact hj
  have hdel1 : (((SH_SLOT_DELETED : Nat)) == SH_SLOT_DELETED) = true := by decide
  obtain ⟨hcf, hcpos, hcd⟩ := counts_after_tombstone (l := t.slots) hjlen
    ⟨SH_SLOT_DELETED, retire (t.slots.getD j zeroSlot).key,
      (t.slots.getD j zeroSlot).value⟩ hdel1 hfil
  have hlpos : 0 < t.length := by
    have := inv.filled_le
    simp only [filledCount] at this
    omega
  have hl32 : t.length < u32 := by
    have := inv.load
    have := inv.cap_le
    simp only [u32]
    omega
  have hd32 : t.deleted + 1 < u32 := by
    have := inv.load
    have := inv.cap_le
    simp only [u32]
    omega
  have hslots : (delAt retire t j).slots =
      t.slots.set j ⟨SH_SLOT_DELETED, retire (t.slots.getD j zeroSlot).key,
        (t.slots.getD j zeroSlot).value⟩ := rfl
  have hlen' : (delAt retire t j).length = t.length - 1 := by
    show dec32 t.length = t.length - 1
    exact dec32_eq hlpos hl32
  have hdel' : (delAt retire t j).deleted = t.deleted + 1 := by
    show inc32 t.deleted = t.deleted + 1
    exact inc32_eq hd32
  refine ⟨?_, hlen', hdel', hlpos⟩
  refine { slots_len := by
             rw [hslots, List.length_set]
             exact inv.slots_len
           cap_ge := inv.cap_ge
           cap_le := inv.cap_le
           cap_pow := inv.cap_pow
           filled_le := ?_
           deleted_eq := ?_
           load := ?_
           hash_consistent := ?_ }
  · show countHof isFilledHof (delAt retire t j).slots ≤ _
    rw [hslots, hcf, hlen']
    have := inv.filled_le
    simp only [filledCount] at this
    omega
  · show countHof _ (delAt retire t j).slots = _
    rw [hslots, hcd, hdel']
    have := inv.deleted_eq
    simp only [deletedCount] at this
    omega
  · show _ ≤ (delAt retire t j).capacity / 2
    have hcap : (delAt retire t j).capacity = t.capacity := rfl
    rw [hlen', hdel', hcap]
    have := inv.load
    omega
  · intro i hilen hfil2
    rw [hslots] at hilen hfil2 ⊢
    by_cases hij : j = i
    · subst hij
      rw [getD_set_self _ hjlen] at hfil2
      simp [isFilledHof, SH_SLOT_DELETED, SH_SLOT_FREE] at hfil2
    · rw [getD_set_ne _ hij] at hfil2 ⊢
      exact inv.hash_consistent i (by simpa using hilen) hfil2

/-! ## Invariant preservation by the public `put` -/

theorem put_ptr_inv (hash : α → Nat) (cmp : α → α → Bool) (ingest : α → α)
    {t t₁ : SH α β} {k : α} {j : Nat} (inv : Inv hash t)
    (h : sh_put_ptr hash cmp ingest true t k = some (t₁, some j)) :
    Inv hash t₁ ∧ j < t₁.capacity := by
  have hload := inv.load
  have hcaple := inv.cap_le
  have hcapge := inv.cap_ge
  by_cases hgrow : (t.length + t.deleted + 1) % u32 > t.capacity / 2
  · simp only [sh_put_ptr, if_pos hgrow] at h
    have hc0 : (t.capacity == 0) = false := beq_eq_false_iff_ne.mpr (by omega)
    rw [hc0] at h
    simp only [Bool.false_eq_true, if_false] at h
    by_cases hsmall : t.capacity ≤ 2 ^ 30
    · have hnc : (t.capacity * 2) % u32 = t.capacity * 2 :=
        Nat.mod_eq_of_lt (by simp only [u32]; omega)
      rw [hnc] at h
      obtain ⟨tm, hres, r1, r2, r3, r4, r5, r6, r7⟩ :=
        resize_success hash cmp t (t.capacity * 2) (by omega)
          (by have := inv.filled_le; omega)
          (by have := inv.filled_le; simp only [u32]; omega)
      simp only [hres] at h
      have hinvm : Inv hash tm :=
        { slots_len := by rw [r2, r1]
          cap_ge := by rw [r1]; omega
          cap_le := by rw [r1]; omega
          cap_pow := by
            obtain ⟨kk, hkk⟩ := inv.cap_pow
            exact ⟨kk + 1, by rw [r1, hkk, pow_succ]⟩
          filled_le := by rw [r5]; exact r6
          deleted_eq := by rw [r3]; exact r4
          load := by
            rw [r5, r3, r1]
            have := inv.filled_le
            omega
          hash_consistent := r7 }
      have hroom : tm.length + tm.deleted + 1 ≤ tm.capacity / 2 := by
        rw [r5, r3, r1]
        have := inv.filled_le
        omega
      obtain ⟨j₀, heq, hj₀, hinv₀, _, hcap₀, _⟩ :=
        inv_put_internal hash cmp (ingest k) hinvm hroom
      simp only [heq, Option.some.injEq, Prod.mk.injEq] at h
      obtain ⟨rfl, rfl⟩ := (⟨h.1.symm, h.2.symm⟩ :
        t₁ = putInternalResult hash tm (ingest k) j₀ ∧ j = j₀)
      exact ⟨hinv₀, by rw [hcap₀]; exact hj₀⟩
    · -- capacity is 2^31: the doubled capacity overflows to 0 and the put fails
      have hc31 : t.capacity = 2 ^ 31 := by
        obtain ⟨kk, hkk⟩ := inv.cap_pow
        have hk31 : kk ≤ 31 := by
          by_contra hgt
          have : 2 ^ 32 ≤ 2 ^ kk := Nat.pow_le_pow_right (by norm_num) (by omega)
          simp only [hkk] at hcaple
          omega
        have : kk = 31 := by
          by_contra hne
          have : 2 ^ kk ≤ 2 ^ 30 := Nat.pow_le_pow_right (by norm_num) (by omega)
          omega
        rw [hkk, this]
      have hnc : (t.capacity * 2) % u32 = 0 := by
        rw [hc31]
        decide
      rw [hnc] at h
      by_cases hl : 0 < t.length
      · have hres : sh_resize hash cmp true t 0 = some (false, t) := by
          simp only [sh_resize, if_pos hl]
        rw [hres] at h
        simp at h
      · obtain ⟨tm, hres, r1, r2, r3, r4, r5, r6, r7⟩ :=
          resize_success hash cmp t 0 (by omega)
            (by have := inv.filled_le; omega)
            (by have := inv.filled_le; simp only [u32]; omega)
        simp only [hres] at h
        simp only [put_internal_cap0 hash cmp (ingest k) r1] at h
        exact Option.noConfusion h
  · simp only [sh_put_ptr, if_neg hgrow] at h
    have hmod : (t.length + t.deleted + 1) % u32 = t.length + t.deleted + 1 :=
      Nat.mod_eq_of_lt (by simp only [u32]; omega)
    rw [hmod] at hgrow
    have hroom : t.length + t.deleted + 1 ≤ t.capacity / 2 := by omega
    obtain ⟨j₀, heq, hj₀, hinv₀, _, hcap₀, _⟩ :=
      inv_put_internal hash cmp (ingest k) inv hroom
    simp only [heq, Option.some.injEq, Prod.mk.injEq] at h
    obtain ⟨rfl, rfl⟩ := (⟨h.1.symm, h.2.symm⟩ :
      t₁ = putInternalResult hash t (ingest k) j₀ ∧ j = j₀)
    exact ⟨hinv₀, by rw [hcap₀]; exact hj₀⟩

theorem inv_put (hash : α → Nat) (cmp : α → α → Bool) (ingest : α → α)
    {t t' : SH α β} {k : α} {v : β} (inv : Inv hash t)
    (h : sh_put hash cmp ingest true t k v = some t') : Inv hash t' := by
  rcases hpp : sh_put_ptr hash cmp ingest true t k with _ | ⟨t₁, r⟩
  · simp only [sh_put, hpp] at h
    exact Option.noConfusion h
  · cases r with
    | none =>
      simp only [sh_put, hpp] at h
      exact Option.noConfusion h
    | some j =>
      simp only [sh_put, hpp, Option.some.injEq] at h
      obtain ⟨hinv₁, hj⟩ := put_ptr_inv hash cmp ingest inv hpp
      rw [← h]
      exact inv_writeValue hash hinv₁ v (by rw [hinv₁.slots_len]; exact hj)

/-! ## Invariant preservation by `del`, `remove` and `shrink` -/

theorem inv_del (hash : α → Nat) (cmp : α → α → Bool) (retire : α → α)
    {t t' : SH α β} {k : α} {b : Bool} (inv : Inv hash t)
    (h : sh_del hash cmp retire true t k = some (b, t')) : Inv hash t' := by
  have hcap : 0 < t.capacity := by have := inv.cap_ge; omega
  rcases hpe : probeAux (getStop cmp (hf hash k) k) t.slots t.capacity t.capacity
      (hf hash k % t.capacity) with _ | p
  · simp only [sh_del, hpe] at h
    exact Option.noConfusion h
  · simp only [sh_del, hpe] at h
    by_cases hfree : ((t.slots.getD p zeroSlot).hash_or_flags == SH_SLOT_FREE) = true
    · rw [if_pos hfree] at h
      simp only [Option.some.injEq, Prod.mk.injEq] at h
      rw [← h.2]
      exact inv
    · rw [if_neg hfree] at h
      -- the probe stopped on a filled matching slot
      obtain ⟨n, hn, hpn, hstopp, _⟩ := probeAux_some_spec inv.slots_len _ _ _
        (Nat.mod_lt _ hcap) hpe
      have hpcap : p < t.capacity := by rw [hpn]; exact Nat.mod_lt _ hcap
      have hmatch : ((t.slots.getD p zeroSlot).hash_or_flags == hf hash k &&
          cmp (t.slots.getD p zeroSlot).key k) = true := by
        simp only [getStop, Bool.or_eq_true] at hstopp
        rcases hstopp with hc | hc
        · exact absurd hc hfree
        · exact hc
      have hhof : (t.slots.getD p zeroSlot).hash_or_flags = hf hash k := by
        have := (Bool.and_eq_true _ _).mp hmatch
        exact beq_iff_eq.mp this.1
      have hfil : isFilledHof (t.slots.getD p zeroSlot).hash_or_flags = true := by
        rw [hhof]
        exact isFilledHof_hf hash k
      obtain ⟨hinv₁, _, _, _⟩ := inv_delAt hash retire inv hpcap hfil
      obtain ⟨b₂, t₂, hsh, hinv₂, _, _⟩ := inv_shrink hash cmp hinv₁
      simp only [hsh, Option.some.injEq, Prod.mk.injEq] at h
      rw [← h.2]
      exact hinv₂

theorem inv_remove (hash : α → Nat) (retire : α → α) {t : SH α β} (inv : Inv hash t)
    {i : Nat} (hi : i < t.slots.length)
    (hfil : isFilledHof ((t.slots.getD i zeroSlot).hash_or_flags) = true) :
    Inv hash (sh_remove retire t (some (Int.ofNat i))) := by
  have hicap : i < t.capacity := by rw [← inv.slots_len]; exact hi
  have hcond : (0 : Int) ≤ Int.ofNat i ∧ (Int.ofNat i : Int) < (t.capacity : Int) := by
    constructor
    · exact Int.ofNat_nonneg i
    · exact Int.ofNat_lt.mpr hicap
  simp only [sh_remove, if_pos hcond]
  have htn : (Int.ofNat i).toNat = i := rfl
  rw [htn]
  exact (inv_delAt hash retire inv hicap hfil).1

/-! ## Every reachable table satisfies the invariant -/

theorem inv_reachable {hash : α → Nat} {cmp : α → α → Bool} {ingest : α → α}
    {retire : α → α} {t : SH α β}
    (h : Reachable hash cmp ingest retire t) : Inv hash t := by
  induction h with
  | new => exact inv_new hash cmp
  | put t k v t' ht hstep ih => exact inv_put hash cmp ingest ih hstep
  | del t k b t' ht hstep ih => exact inv_del hash cmp retire ih hstep
  | rem t i ht hi hfil ih => exact inv_remove hash retire ih hi hfil
  | shrink t b t' ht hstep ih =>
    obtain ⟨b₂, t₂, hsh, hinv₂, _, _⟩ := inv_shrink hash cmp ih
    rw [hstep] at hsh
    simp only [Option.some.injEq, Prod.mk.injEq] at hsh
    rw [hsh.2]
    exact hinv₂

/-! ## The probe path visits distinct slots -/

theorem seq_mod_ne {cap m n : Nat} (hm : m < n) (hn : n < cap) (start : Nat) :
    (start + m) % cap ≠ (start + n) % cap := by
  intro h
  have hdvd : cap ∣ (start + n) - (start + m) :=
    (Nat.modEq_iff_dvd' (by omega)).mp h
  rw [show (start + n) - (start + m) = n - m from by omega] at hdvd
  have := Nat.le_of_dvd (by omega) hdvd
  omega

/-- Every stopper of the `get`/`del` probe is a stopper of the `put` probe
(for the ingested key, when `key_cmp_expr` does not distinguish a key from
its ingested copy). -/
theorem getStop_imp_putStop {cmp : α → α → Bool} {ingest : α → α} {k : α}
    {hfv : Nat} (cmpIngR : ∀ a b, cmp a (ingest b) = cmp a b) (s : Slot α β)
    (h : getStop cmp hfv k s = true) : putStop cmp hfv (ingest k) s = true := by
  simp only [getStop, Bool.or_eq_true] at h
  simp only [putStop, Bool.or_eq_true]
  rcases h with h | h
  · exact Or.inl (Or.inl h)
  · right
    rw [Bool.and_eq_true] at h ⊢
    exact ⟨h.1, by rw [cmpIngR]; exact h.2⟩

/-- A successful `resize` went through the re-insertion loop on a fresh
zeroed table. -/
theorem resize_inversion {hash : α → Nat} {cmp : α → α → Bool} {t u : SH α β} {nc : Nat}
    (h : sh_resize hash cmp true t nc = some (true, u)) :
    reinsert hash cmp t.slots ⟨0, nc, 0, List.replicate nc zeroSlot⟩ = some u := by
  by_cases hg : nc < t.length
  · simp only [sh_resize, if_pos hg] at h
    simp at h
  · simp only [sh_resize, if_neg hg, if_true] at h
    rcases hre : reinsert hash cmp t.slots ⟨0, nc, 0, List.replicate nc zeroSlot⟩ with _ | u'
    · simp only [hre] at h
      exact Option.noConfusion h
    · simp only [hre, Option.some.injEq, Prod.mk.injEq] at h
      rw [h.2]

/-! ## `put_ptr` succeeds below the overflow threshold -/

/-- On any table satisfying the invariant whose occupancy (plus the incoming
entry) is at most `2^30`, `put_ptr` with a succeeding allocator returns a
slot index, and the internal put ran on a table `tm` (the original, or the
grown one) whose probe facts are exposed for the round-trip arguments. -/
theorem put_ptr_success (hash : α → Nat) (cmp : α → α → Bool) (ingest : α → α)
    {t : SH α β} (k : α) (inv : Inv hash t)
    (hsmall : t.length + t.deleted + 1 ≤ 2 ^ 30) :
    ∃ tm j n, Inv hash tm ∧
      sh_put_ptr hash cmp ingest true t k =
        some (putInternalResult hash tm (ingest k) j, some j) ∧
      (tm = t ∨ ∃ nc, sh_resize hash cmp true t nc = some (true, tm)) ∧
      n < tm.capacity ∧
      j = (hf hash (ingest k) % tm.capacity + n) % tm.capacity ∧
      putStop cmp (hf hash (ingest k)) (ingest k) (tm.slots.getD j zeroSlot) = true ∧
      ∀ m, m < n → putStop cmp (hf hash (ingest k)) (ingest k)
        (tm.slots.getD ((hf hash (ingest k) % tm.capacity + m) % tm.capacity) zeroSlot)
          = false := by
  have hcapge := inv.cap_ge
  have hcaple := inv.cap_le
  have hload := inv.load
  have hfl := inv.filled_le
  have h30 : (2 : Nat) ^ 30 = 1073741824 := by norm_num
  have h31 : (2 : Nat) ^ 31 = 2147483648 := by norm_num
  have hu32 : t.length + t.deleted + 1 < u32 := by simp only [u32]; omega
  have hmod : (t.length + t.deleted + 1) % u32 = t.length + t.deleted + 1 :=
    Nat.mod_eq_of_lt hu32
  by_cases hgrow : (t.length + t.deleted + 1) % u32 > t.capacity / 2
  · -- grow path
    have hgrow' : t.capacity / 2 < t.length + t.deleted + 1 := by rwa [hmod] at hgrow
    obtain ⟨kk, hkk⟩ := inv.cap_pow
    have hcap30 : t.capacity ≤ 2 ^ 30 := by
      rcases Nat.lt_or_ge kk 31 with hlt | hge
      · rw [hkk]
        exact Nat.pow_le_pow_right (by norm_num) (by omega)
      · exfalso
        have hge31 : (2 : Nat) ^ 31 ≤ 2 ^ kk := Nat.pow_le_pow_right (by norm_num) hge
        rw [← hkk] at hge31
        have hcapeq : t.capacity = 2 ^ 31 := le_antisymm hcaple hge31
        rw [hcapeq, h31] at hgrow'
        omega
    have hc0 : (t.capacity == 0) = false := beq_eq_false_iff_ne.mpr (by omega)
    have hnc : (t.capacity * 2) % u32 = t.capacity * 2 :=
      Nat.mod_eq_of_lt (by simp only [u32]; omega)
    obtain ⟨tm, hres, r1, r2, r3, r4, r5, r6, r7⟩ :=
      resize_success hash cmp t (t.capacity * 2) (by omega)
        (by omega)
        (by simp only [u32]; omega)
    have hinvm : Inv hash tm :=
      { slots_len := by rw [r2, r1]
        cap_ge := by rw [r1]; omega
        cap_le := by rw [r1]; omega
        cap_pow := by rw [r1, hkk]; exact ⟨kk + 1, (pow_succ 2 kk).symm⟩
        filled_le := by rw [r5]; exact r6
        deleted_eq := by rw [r3]; exact r4
        load := by rw [r5, r3, r1]; omega
        hash_consistent := r7 }
    have hcapm : 0 < tm.capacity := by rw [r1]; omega
    have hfillm : filledCount tm.slots < tm.capacity := by
      have := r6
      rw [r1]
      omega
    obtain ⟨j, n, hj, heq, hstop, hn, hjn, hpath⟩ :=
      put_internal_full hash cmp tm (ingest k) hinvm.slots_len hcapm hfillm
    refine ⟨tm, j, n, hinvm, ?_, Or.inr ⟨_, hres⟩, hn, hjn, hstop, hpath⟩
    simp only [sh_put_ptr, if_pos hgrow, hc0, Bool.false_eq_true, if_false, hnc, hres, heq]
  · -- no grow: the internal put runs on the table itself
    have hroom : t.length + t.deleted + 1 ≤ t.capacity / 2 := by
      rw [hmod] at hgrow
      omega
    have hcap : 0 < t.capacity := by omega
    have hfill : filledCount t.slots < t.capacity := by omega
    obtain ⟨j, n, hj, heq, hstop, hn, hjn, hpath⟩ :=
      put_internal_full hash cmp t (ingest k) inv.slots_len hcap hfill
    refine ⟨t, j, n, inv, ?_, Or.inl rfl, hn, hjn, hstop, hpath⟩
    simp only [sh_put_ptr, if_neg hgrow, heq]

/-! ## The round trip through the freshly written slot -/

/-- After the internal put has settled on slot `j` and the value has been
written, the `get` probe for the original key stops at exactly slot `j`
(whenever `key_cmp_expr` does not distinguish a key from its ingested copy
and `key_hash_expr` hashes them alike). -/
theorem get_after_put_core (hash : α → Nat) (cmp : α → α → Bool) (ingest : α → α)
    (hashIng : ∀ a, hash (ingest a) = hash a)
    (cmpIngL : ∀ a b, cmp (ingest a) b = cmp a b)
    (cmpIngR : ∀ a b, cmp a (ingest b) = cmp a b)
    (cmpRefl : ∀ a, cmp a a = true)
    {tm : SH α β} {k : α} {j n : Nat} (v : β) {t' : SH α β}
    (ht' : t' = writeValue (putInternalResult hash tm (ingest k) j) j v)
    (hlen : tm.slots.length = tm.capacity) (hcap : 0 < tm.capacity)
    (hn : n < tm.capacity)
    (hjn : j = (hf hash (ingest k) % tm.capacity + n) % tm.capacity)
    (hpath : ∀ m, m < n → putStop cmp (hf hash (ingest k)) (ingest k)
      (tm.slots.getD ((hf hash (ingest k) % tm.capacity + m) % tm.capacity) zeroSlot)
        = false) :
    sh_get_ptr hash cmp t' k = some (some j) ∧
    t'.slots.getD j zeroSlot = ⟨hf hash k, ingest k, v⟩ ∧
    t'.slots.length = tm.capacity ∧ t'.capacity = tm.capacity ∧
    (∀ i, i ≠ j → t'.slots.getD i zeroSlot = tm.slots.getD i zeroSlot) := by
  have hfeq : hf hash (ingest k) = hf hash k := by
    simp only [hf, hashIng]
  rw [hfeq] at hjn hpath
  have hjcap : j < tm.capacity := by rw [hjn]; exact Nat.mod_lt _ hcap
  have hjlen : j < tm.slots.length := by rw [hlen]; exact hjcap
  have hmid : (putInternalResult hash tm (ingest k) j).slots =
      tm.slots.set j ⟨hf hash (ingest k), ingest k, (tm.slots.getD j zeroSlot).value⟩ := rfl
  have hgetmid : (putInternalResult hash tm (ingest k) j).slots.getD j zeroSlot =
      ⟨hf hash (ingest k), ingest k, (tm.slots.getD j zeroSlot).value⟩ := by
    rw [hmid]
    exact getD_set_self _ hjlen
  have hslots : t'.slots = tm.slots.set j ⟨hf hash k, ingest k, v⟩ := by
    rw [ht']
    show (putInternalResult hash tm (ingest k) j).slots.set j
        ⟨((putInternalResult hash tm (ingest k) j).slots.getD j zeroSlot).hash_or_flags,
         ((putInternalResult hash tm (ingest k) j).slots.getD j zeroSlot).key, v⟩ =
      tm.slots.set j ⟨hf hash k, ingest k, v⟩
    rw [hgetmid, hmid, List.set_set, hfeq]
  have hlen' : t'.slots.length = tm.capacity := by
    rw [hslots, List.length_set]
    exact hlen
  have hcap' : t'.capacity = tm.capacity := by rw [ht']; rfl
  have hgetj : t'.slots.getD j zeroSlot = ⟨hf hash k, ingest k, v⟩ := by
    rw [hslots]
    exact getD_set_self _ hjlen
  have hne : ∀ i, i ≠ j → t'.slots.getD i zeroSlot = tm.slots.getD i zeroSlot := by
    intro i hij
    rw [hslots]
    exact getD_set_ne _ (fun h => hij h.symm)
  have hstopj : getStop cmp (hf hash k) k
      (t'.slots.getD ((hf hash k % tm.capacity + n) % tm.capacity) zeroSlot) = true := by
    rw [← hjn, hgetj]
    simp [getStop, cmpIngL, cmpRefl]
  have hpath' : ∀ m, m < n → getStop cmp (hf hash k) k
      (t'.slots.getD ((hf hash k % tm.capacity + m) % tm.capacity) zeroSlot) = false := by
    intro m hm
    have hpm : (hf hash k % tm.capacity + m) % tm.capacity ≠ j := by
      rw [hjn]
      exact seq_mod_ne hm hn _
    rw [hne _ hpm]
    by_contra htrue
    have htrue' : getStop cmp (hf hash k) k
        (tm.slots.getD ((hf hash k % tm.capacity + m) % tm.capacity) zeroSlot) = true := by
      cases hx : getStop cmp (hf hash k) k
          (tm.slots.getD ((hf hash k % tm.capacity + m) % tm.capacity) zeroSlot)
      · exact absurd hx htrue
      · rfl
    have := getStop_imp_putStop cmpIngR _ htrue'
    rw [hpath m hm] at this
    exact Bool.false_ne_true this
  have hprobe : probeAux (getStop cmp (hf hash k) k) t'.slots tm.capacity tm.capacity
      (hf hash k % tm.capacity) = some j := by
    rw [hjn]
    exact probeAux_eq_some_of hlen' n tm.capacity _ (Nat.mod_lt _ hcap) hn hstopj hpath'
  have hfree : ((hf hash k == SH_SLOT_FREE)) = false :=
    beq_eq_false_iff_ne.mpr (hf_ne_free hash k)
  refine ⟨?_, hgetj, hlen', hcap', hne⟩
  simp only [sh_get_ptr, hcap', hprobe, hgetj, hfree]
  simp

/-! ## Identity-hashed prefix tables -/

theorem lor_two_pow_mod {a kk : Nat} (hkk : kk ≤ 31) :
    (a ||| 2 ^ 31) % 2 ^ kk = a % 2 ^ kk := by
  apply Nat.eq_of_testBit_eq
  intro i
  rw [Nat.testBit_mod_two_pow, Nat.testBit_mod_two_pow, Nat.testBit_lor]
  by_cases hi : i < kk
  · have hne : 31 ≠ i := by omega
    rw [Nat.testBit_two_pow_of_ne hne]
    simp [hi]
  · simp [hi]

/-- The tagged identity hash probes straight to its own slot: the filled
bit is a multiple of every capacity `2^kk` with `kk ≤ 31`. -/
theorem hf_hId_mod {m kk : Nat} (hkk : kk ≤ 31) (hm : m < 2 ^ kk) :
    hf hId m % 2 ^ kk = m := by
  have hcap31 : (2 : Nat) ^ kk ≤ 2 ^ 31 := Nat.pow_le_pow_right (by norm_num) hkk
  have hlt : m < u32 := by
    have : (2 : Nat) ^ 31 < u32 := by norm_num [u32]
    omega
  have hfil : SH_SLOT_FILLED = 2 ^ 31 := by norm_num [SH_SLOT_FILLED]
  show ((hId m % u32) ||| SH_SLOT_FILLED) % 2 ^ kk = m
  rw [hfil, show hId m = m from rfl, Nat.mod_eq_of_lt hlt, lor_two_pow_mod hkk,
    Nat.mod_eq_of_lt hm]

theorem prefixArr_length (n cap : Nat) (h : n ≤ cap) : (prefixArr n cap).length = cap := by
  simp only [prefixArr, List.length_append, List.length_map, List.length_range,
    List.length_replicate]
  omega

theorem prefixArr_getD_ge (n cap i : Nat) (hni : n ≤ i) :
    (prefixArr n cap).getD i zeroSlot = zeroSlot := by
  rw [prefixArr, List.getD_append_right _ _ _ _ (by simp; omega)]
  exact getD_replicate _ _

theorem prefixArr_getD_lt (n cap i : Nat) (hi : i < n) :
    (prefixArr n cap).getD i zeroSlot = fillSlot i := by
  have hlen : ((List.range n).map fillSlot).length = n := by simp
  rw [prefixArr, List.getD_append _ _ _ _ (by simp; omega),
    List.getD_eq_getElem?_getD, List.getElem?_eq_getElem (by simp; omega)]
  simp

theorem list_eq_of_getD_eq {l₁ l₂ : List (Slot α β)} (hlen : l₁.length = l₂.length)
    (h : ∀ i, i < l₁.length → l₁.getD i zeroSlot = l₂.getD i zeroSlot) : l₁ = l₂ := by
  apply List.ext_getElem hlen
  intro i h₁ h₂
  have h' := h i h₁
  rw [List.getD_eq_getElem?_getD, List.getD_eq_getElem?_getD,
    List.getElem?_eq_getElem h₁, List.getElem?_eq_getElem h₂] at h'
  simpa using h'

theorem prefixArr_set (m cap : Nat) (hm : m < cap) :
    (prefixArr m cap).set m (fillSlot m) = prefixArr (m + 1) cap := by
  have hl1 : (prefixArr m cap).length = cap := prefixArr_length _ _ (by omega)
  have hl2 : (prefixArr (m + 1) cap).length = cap := prefixArr_length _ _ (by omega)
  have hmlen : m < (prefixArr m cap).length := by omega
  apply list_eq_of_getD_eq (by rw [List.length_set, hl1, hl2])
  intro i hset
  have hi : i < cap := by rw [List.length_set, hl1] at hset; exact hset
  by_cases him : i = m
  · subst him
    rw [getD_set_self _ hmlen, prefixArr_getD_lt _ _ _ (by omega)]
  · rw [getD_set_ne _ (fun hh => him hh.symm)]
    by_cases hilt : i < m
    · rw [prefixArr_getD_lt _ _ _ hilt, prefixArr_getD_lt _ _ _ (by omega)]
    · rw [prefixArr_getD_ge _ _ _ (by omega), prefixArr_getD_ge _ _ _ (by omega)]

/-- Inserting key `m` into the table that holds exactly the keys
`0, …, m-1` (identity hash, capacity `2^kk`): the probe goes straight to
the free slot `m`, and writing value `0` yields the next prefix table. -/
theorem put_internal_prefix_key (m kk : Nat) (hkk31 : kk ≤ 31) (hm2 : m < 2 ^ kk) :
    sh_put_ptr_internal hId cmpEq (prefixTable m (2 ^ kk)) m =
      some (putInternalResult hId (prefixTable m (2 ^ kk)) m m, m) ∧
    writeValue (putInternalResult hId (prefixTable m (2 ^ kk)) m m) m 0 =
      prefixTable (m + 1) (2 ^ kk) := by
  have hmod : hf hId m % 2 ^ kk = m := hf_hId_mod hkk31 hm2
  have hlen : (prefixArr m (2 ^ kk)).length = 2 ^ kk := prefixArr_length _ _ (by omega)
  have hmlen : m < (prefixArr m (2 ^ kk)).length := by omega
  have hfree : (prefixArr m (2 ^ kk)).getD m zeroSlot = zeroSlot :=
    prefixArr_getD_ge _ _ _ (le_refl m)
  have hlt32 : m + 1 < u32 := by
    have hc : (2 : Nat) ^ kk ≤ 2 ^ 31 := Nat.pow_le_pow_right (by norm_num) hkk31
    have hu : (2 : Nat) ^ 31 < u32 := by norm_num [u32]
    omega
  have hstop : putStop cmpEq (hf hId m) m
      ((prefixArr m (2 ^ kk)).getD ((m + 0) % 2 ^ kk) zeroSlot) = true := by
    rw [Nat.add_zero, Nat.mod_eq_of_lt hm2, hfree]
    simp [putStop, zeroSlot, SH_SLOT_FREE]
  have hprobe : probeAux (putStop cmpEq (hf hId m) m) (prefixArr m (2 ^ kk))
      (2 ^ kk) (2 ^ kk) (hf hId m % 2 ^ kk) = some m := by
    rw [hmod]
    have h := probeAux_eq_some_of hlen 0 (2 ^ kk)
      m hm2 (by omega) hstop (fun mm hmm => absurd hmm (by omega))
    rwa [Nat.add_zero, Nat.mod_eq_of_lt hm2] at h
  constructor
  · simp only [sh_put_ptr_internal, prefixTable, hprobe]
  · have hslots1 : (putInternalResult hId (prefixTable m (2 ^ kk)) m m).slots =
        (prefixArr m (2 ^ kk)).set m ⟨hf hId m, m, 0⟩ := by
      show (prefixArr m (2 ^ kk)).set m
          ⟨hf hId m, m, ((prefixArr m (2 ^ kk)).getD m zeroSlot).value⟩ =
        (prefixArr m (2 ^ kk)).set m ⟨hf hId m, m, 0⟩
      rw [hfree]
      rfl
    have hlen1 : (putInternalResult hId (prefixTable m (2 ^ kk)) m m).length = m + 1 := by
      show inc32 m = m + 1
      exact inc32_eq hlt32
    have hdel1 : (putInternalResult hId (prefixTable m (2 ^ kk)) m m).deleted = 0 := by
      show (if ((prefixArr m (2 ^ kk)).getD m zeroSlot).hash_or_flags == SH_SLOT_DELETED
        then dec32 0 else 0) = 0
      rw [hfree]
      decide
    show SH.mk (putInternalResult hId (prefixTable m (2 ^ kk)) m m).length
        (putInternalResult hId (prefixTable m (2 ^ kk)) m m).capacity
        (putInternalResult hId (prefixTable m (2 ^ kk)) m m).deleted
        ((putInternalResult hId (prefixTable m (2 ^ kk)) m m).slots.set m
          ⟨((putInternalResult hId (prefixTable m (2 ^ kk)) m m).slots.getD m
              zeroSlot).hash_or_flags,
           ((putInternalResult hId (prefixTable m (2 ^ kk)) m m).slots.getD m
              zeroSlot).key, 0⟩) =
      prefixTable (m + 1) (2 ^ kk)
    rw [hlen1, hdel1, hslots1]
    simp only [getD_set_self _ hmlen, List.set_set]
    show SH.mk (m + 1) (2 ^ kk) 0 ((prefixArr m (2 ^ kk)).set m (fillSlot m)) =
      prefixTable (m + 1) (2 ^ kk)
    rw [prefixArr_set _ _ hm2]
    rfl

/-- Re-insertion skips a tail of free slots. -/
theorem reinsert_append_replicate (hash : α → Nat) (cmp : α → α → Bool) :
    ∀ (l : List (Slot α β)) (r : Nat) (u : SH α β),
      reinsert hash cmp (l ++ List.replicate r zeroSlot) u = reinsert hash cmp l u := by
  intro l
  induction l with
  | nil =>
    intro r
    induction r with
    | zero => intro u; rfl
    | succ rr ih =>
      intro u
      rw [List.nil_append, List.replicate_succ]
      show reinsert hash cmp (zeroSlot :: List.replicate rr zeroSlot) u =
        reinsert hash cmp [] u
      simp only [reinsert, isFilledHof_zero, Bool.false_eq_true, if_false]
      have := ih u
      rw [List.nil_append] at this
      exact this
  | cons s rest ih =>
    intro r u
    rw [List.cons_append]
    by_cases hfil : isFilledHof s.hash_or_flags = true
    · simp only [reinsert, hfil, if_true]
      rcases hput : sh_put_ptr_internal hash cmp u s.key with _ | ⟨t', i⟩
      · rfl
      · exact ih r (writeValue t' i s.value)
    · have hfil' : isFilledHof s.hash_or_flags = false := Bool.eq_false_iff.mpr hfil
      simp only [reinsert, hfil', Bool.false_eq_true, if_false]
      exact ih r u

/-- Re-inserting the keys `i, …, i+d-1` (identity hash) into the prefix
table holding `0, …, i-1` extends the prefix, one slot per key. -/
theorem reinsert_range (K : Nat) (hK31 : K ≤ 31) :
    ∀ (d i : Nat), i + d ≤ 2 ^ K →
      reinsert hId cmpEq ((List.range' i d).map fillSlot) (prefixTable i (2 ^ K)) =
        some (prefixTable (i + d) (2 ^ K)) := by
  intro d
  induction d with
  | zero =>
    intro i _
    simp [List.range']
    rfl
  | succ dd ih =>
    intro i h
    obtain ⟨hint, hwrite⟩ := put_internal_prefix_key i K hK31 (by omega)
    rw [List.range'_succ, List.map_cons]
    have hfil : isFilledHof (fillSlot i).hash_or_flags = true := by
      show isFilledHof (hf hId i) = true
      exact isFilledHof_hf hId i
    simp only [reinsert, hfil, if_true]
    have hkey : (fillSlot i).key = i := rfl
    have hval : (fillSlot i).value = 0 := rfl
    rw [hkey]
    simp only [hint, hval, hwrite]
    have hrec := ih (i + 1) (by omega)
    rw [hrec]
    congr 2
    omega

/-- `resize` of a prefix table to a fresh power-of-two capacity rebuilds the
same prefix at the new capacity. -/
theorem resize_prefix_table {n : Nat} (kk : Nat) {K : Nat} (hK31 : K ≤ 31) (hn : n ≤ 2 ^ K) :
    sh_resize hId cmpEq true (prefixTable n (2 ^ kk)) (2 ^ K) =
      some (true, prefixTable n (2 ^ K)) := by
  have hguard : ¬ 2 ^ K < (prefixTable n (2 ^ kk)).length := by
    show ¬ 2 ^ K < n
    omega
  simp only [sh_resize, if_neg hguard, if_true]
  have hfresh : (⟨0, 2 ^ K, 0, List.replicate (2 ^ K) zeroSlot⟩ : SH Nat Nat) =
      prefixTable 0 (2 ^ K) := by
    show _ = (⟨0, 2 ^ K, 0, prefixArr 0 (2 ^ K)⟩ : SH Nat Nat)
    rw [show prefixArr 0 (2 ^ K) = List.replicate (2 ^ K) zeroSlot from by
      simp [prefixArr]]
  have happ : (prefixTable n (2 ^ kk)).slots =
      (List.range' 0 n).map fillSlot ++ List.replicate (2 ^ kk - n) zeroSlot := by
    show prefixArr n (2 ^ kk) = _
    rw [prefixArr, List.range_eq_range']
  rw [hfresh, happ, reinsert_append_replicate]
  have hrange := reinsert_range K hK31 n 0 (by omega)
  rw [Nat.zero_add] at hrange
  rw [hrange]

/-- One `put` on a prefix table below the growth threshold. -/
theorem put_prefix_step {m kk : Nat} (hkk31 : kk ≤ 31) (hm : m + 1 ≤ 2 ^ kk / 2) :
    sh_put hId cmpEq ingId true (prefixTable m (2 ^ kk)) m 0 =
      some (prefixTable (m + 1) (2 ^ kk)) := by
  have hm2 : m < 2 ^ kk := by
    have := Nat.div_le_self (2 ^ kk) 2
    omega
  obtain ⟨hint, hwrite⟩ := put_internal_prefix_key m kk hkk31 hm2
  have hlt : m + 0 + 1 < u32 := by
    have hc : (2 : Nat) ^ kk ≤ 2 ^ 31 := Nat.pow_le_pow_right (by norm_num) hkk31
    have hu : (2 : Nat) ^ 31 < u32 := by norm_num [u32]
    omega
  have hgrow : ¬ ((prefixTable m (2 ^ kk)).length + (prefixTable m (2 ^ kk)).deleted + 1)
      % u32 > (prefixTable m (2 ^ kk)).capacity / 2 := by
    show ¬ (m + 0 + 1) % u32 > 2 ^ kk / 2
    rw [Nat.mod_eq_of_lt hlt]
    omega
  have hpp : sh_put_ptr hId cmpEq ingId true (prefixTable m (2 ^ kk)) m =
      some (putInternalResult hId (prefixTable m (2 ^ kk)) m m, some m) := by
    simp only [sh_put_ptr, if_neg hgrow, ingId, hint]
  simp only [sh_put, hpp, hwrite]

/-- One `put` on a prefix table exactly at the growth threshold: the
capacity doubles first. -/
theorem put_prefix_grow {kk : Nat} (hkk1 : 1 ≤ kk) (hkk30 : kk ≤ 30) :
    sh_put hId cmpEq ingId true (prefixTable (2 ^ (kk - 1)) (2 ^ kk)) (2 ^ (kk - 1)) 0 =
      some (prefixTable (2 ^ (kk - 1) + 1) (2 ^ (kk + 1))) := by
  have hpowsucc : (2 : Nat) ^ kk = 2 ^ (kk - 1) * 2 := by
    conv_lhs => rw [show kk = (kk - 1) + 1 from by omega]
    rw [pow_succ]
  have hhalf : 2 ^ kk / 2 = 2 ^ (kk - 1) := by rw [hpowsucc]; omega
  have hlt : 2 ^ (kk - 1) + 0 + 1 < u32 := by
    have hc : (2 : Nat) ^ (kk - 1) < 2 ^ 31 :=
      Nat.pow_lt_pow_right (by norm_num) (by omega)
    have hu : (2 : Nat) ^ 31 < u32 := by norm_num [u32]
    omega
  have hgrow : ((prefixTable (2 ^ (kk - 1)) (2 ^ kk)).length +
      (prefixTable (2 ^ (kk - 1)) (2 ^ kk)).deleted + 1) % u32 >
      (prefixTable (2 ^ (kk - 1)) (2 ^ kk)).capacity / 2 := by
    show (2 ^ (kk - 1) + 0 + 1) % u32 > 2 ^ kk / 2
    rw [Nat.mod_eq_of_lt hlt, hhalf]
    omega
  have hc0 : ((prefixTable (2 ^ (kk - 1)) (2 ^ kk)).capacity == 0) = false := by
    show ((2 ^ kk : Nat) == 0) = false
    exact beq_eq_false_iff_ne.mpr (Nat.pos_iff_ne_zero.mp (pow_pos (by norm_num) kk))
  have hnc : ((prefixTable (2 ^ (kk - 1)) (2 ^ kk)).capacity * 2) % u32 = 2 ^ (kk + 1) := by
    show ((2 ^ kk : Nat) * 2) % u32 = 2 ^ (kk + 1)
    rw [← pow_succ]
    exact Nat.mod_eq_of_lt (by
      have hc : (2 : Nat) ^ (kk + 1) ≤ 2 ^ 31 := Nat.pow_le_pow_right (by norm_num) (by omega)
      have hu : (2 : Nat) ^ 31 < u32 := by norm_num [u32]
      omega)
  have hres := resize_prefix_table kk (K := kk + 1) (by omega)
    (n := 2 ^ (kk - 1)) (by
      have : (2 : Nat) ^ (kk - 1) ≤ 2 ^ (kk + 1) := Nat.pow_le_pow_right (by norm_num) (by omega)
      omega)
  obtain ⟨hint, hwrite⟩ := put_internal_prefix_key (2 ^ (kk - 1)) (kk + 1) (by omega)
    (by
      have : (2 : Nat) ^ (kk - 1) < 2 ^ (kk + 1) :=
        Nat.pow_lt_pow_right (by norm_num) (by omega)
      omega)
  have hpp : sh_put_ptr hId cmpEq ingId true (prefixTable (2 ^ (kk - 1)) (2 ^ kk))
      (2 ^ (kk - 1)) =
      some (putInternalResult hId (prefixTable (2 ^ (kk - 1)) (2 ^ (kk + 1)))
        (2 ^ (kk - 1)) (2 ^ (kk - 1)), some (2 ^ (kk - 1))) := by
    simp only [sh_put_ptr, if_pos hgrow, hc0, Bool.false_eq_true, if_false, hnc, hres,
      ingId, hint]
  simp only [sh_put, hpp, hwrite]

/-- Every prefix table up to `2^30` keys is reachable (with the capacity it
has at that point). -/
theorem reach_prefix_table : ∀ n, n ≤ 2 ^ 30 →
    ∃ kk, 3 ≤ kk ∧ kk ≤ 31 ∧ n ≤ 2 ^ (kk - 1) ∧
      Reachable hId cmpEq ingId retZero (prefixTable n (2 ^ kk)) := by
  intro n
  induction n with
  | zero =>
    intro _
    refine ⟨3, le_refl _, by omega, by norm_num, ?_⟩
    have hnew : prefixTable 0 (2 ^ 3) = sh_new hId cmpEq true := by
      rw [sh_new_eq]
      show (⟨0, 2 ^ 3, 0, prefixArr 0 (2 ^ 3)⟩ : SH Nat Nat) = _
      rw [show prefixArr 0 (2 ^ 3) = List.replicate (2 ^ 3) zeroSlot from by
        simp [prefixArr]]
      norm_num
    rw [hnew]
    exact Reachable.new
  | succ m ih =>
    intro hm
    obtain ⟨kk, h3, h31, hle, hreach⟩ := ih (by omega)
    have hhalf : 2 ^ kk / 2 = 2 ^ (kk - 1) := by
      have hpowsucc : (2 : Nat) ^ kk = 2 ^ (kk - 1) * 2 := by
        conv_lhs => rw [show kk = (kk - 1) + 1 from by omega]
        rw [pow_succ]
      rw [hpowsucc]
      omega
    by_cases hstep : m + 1 ≤ 2 ^ (kk - 1)
    · exact ⟨kk, h3, h31, hstep,
        Reachable.put _ m 0 _ hreach (put_prefix_step h31 (by omega))⟩
    · have hm1 : m = 2 ^ (kk - 1) := by omega
      have hkk30 : kk ≤ 30 := by
        by_contra hgt
        have hkk31' : kk = 31 := by omega
        rw [hm1, hkk31'] at hm
        norm_num at hm
      refine ⟨kk + 1, by omega, by omega, ?_, ?_⟩
      · have hlt2 : (2 : Nat) ^ (kk - 1) < 2 ^ kk :=
          Nat.pow_lt_pow_right (by norm_num) (by omega)
        rw [hm1, Nat.add_sub_cancel]
        omega
      · refine Reachable.put _ m 0 _ hreach ?_
        rw [hm1]
        exact put_prefix_grow (by omega) hkk30

/-! ## Tables in which a key is absent -/

theorem zeroSlot_no_match (hash : α → Nat) (cmp : α → α → Bool) (k : α) :
    matchesKey hash cmp k (zeroSlot (α := α) (β := β)) = false := by
  have hne : ((SH_SLOT_FREE == hf hash k)) = false :=
    beq_eq_false_iff_ne.mpr (Ne.symm (hf_ne_free hash k))
  show ((SH_SLOT_FREE == hf hash k) && cmp (zeroSlot (α := α) (β := β)).key k) = false
  rw [hne]
  rfl

theorem deleted_no_match (hash : α → Nat) (cmp : α → α → Bool) (k : α) (a : α) (b : β) :
    matchesKey hash cmp k (⟨SH_SLOT_DELETED, a, b⟩ : Slot α β) = false := by
  have hne : ((SH_SLOT_DELETED == hf hash k)) = false :=
    beq_eq_false_iff_ne.mpr (Ne.symm (hf_ne_deleted hash k))
  show ((SH_SLOT_DELETED == hf hash k) && cmp a k) = false
  rw [hne]
  rfl

theorem forall_mem_of_forall_getD {l : List (Slot α β)} {p : Slot α β → Prop}
    (h : ∀ i, i < l.length → p (l.getD i zeroSlot)) : ∀ s ∈ l, p s := by
  intro s hs
  obtain ⟨i, hi, rfl⟩ := List.mem_iff_getElem.mp hs
  have hh := h i hi
  rw [List.getD_eq_getElem?_getD, List.getElem?_eq_getElem hi] at hh
  simpa using hh

/-- A `resize` that reports failure with a succeeding allocator failed its
`new_capacity < length` guard and returned the table unchanged. -/
theorem resize_false_inversion {hash : α → Nat} {cmp : α → α → Bool} {t u : SH α β}
    {nc : Nat} (h : sh_resize hash cmp true t nc = some (false, u)) : u = t := by
  by_cases hg : nc < t.length
  · simp only [sh_resize, if_pos hg, Option.some.injEq, Prod.mk.injEq] at h
    exact h.2.symm
  · simp only [sh_resize, if_neg hg, if_true] at h
    rcases hre : reinsert hash cmp t.slots ⟨0, nc, 0, List.replicate nc zeroSlot⟩ with _ | u'
    · simp only [hre] at h
      exact Option.noConfusion h
    · simp only [hre, Option.some.injEq, Prod.mk.injEq] at h
      exact absurd h.1 (by simp)

/-- Every table satisfying the invariant keeps at least one free slot (its
occupancy is at most half the capacity). -/
theorem free_slot_exists {hash : α → Nat} {t : SH α β} (inv : Inv hash t) :
    ∃ i, i < t.capacity ∧
      ((t.slots.getD i zeroSlot).hash_or_flags == SH_SLOT_FREE) = true := by
  have hpart := count_partition t.slots
  have hfl := inv.filled_le
  have hde := inv.deleted_eq
  have hload := inv.load
  have hcap := inv.cap_ge
  have hlen := inv.slots_len
  have hpos : 0 < countHof (fun h => h == SH_SLOT_FREE) t.slots := by
    have : freeCount t.slots + deletedCount t.slots + filledCount t.slots =
        t.slots.length := hpart
    simp only [freeCount] at this ⊢
    omega
  obtain ⟨i, hi, hp⟩ := exists_true_of_countHof_pos hpos
  exact ⟨i, by rw [← hlen]; exact hi, hp⟩

/-- Probing a table for an absent key: the probe stops at a free slot, so
`get_ptr` returns NULL, `get` returns the default value and `del` returns
`false` without touching the table (and without any shrink check). -/
theorem absent_key_ops (hash : α → Nat) (cmp : α → α → Bool) (retire : α → α)
    {t : SH α β} (k : α)
    (hlen : t.slots.length = t.capacity) (hcap : 0 < t.capacity)
    (hfreex : ∃ i, i < t.capacity ∧
      ((t.slots.getD i zeroSlot).hash_or_flags == SH_SLOT_FREE) = true)
    (habsent : ∀ i, matchesKey hash cmp k (t.slots.getD i zeroSlot) = false) :
    sh_get_ptr hash cmp t k = some none ∧
    (∀ d, sh_getVal hash cmp t k d = some d) ∧
    ∀ alloc, sh_del hash cmp retire alloc t k = some (false, t) := by
  obtain ⟨f, hf_, hfree⟩ := hfreex
  have hstopf : getStop cmp (hf hash k) k (t.slots.getD f zeroSlot) = true := by
    simp only [getStop, Bool.or_eq_true]
    exact Or.inl hfree
  obtain ⟨j, hj⟩ := probeAux_succeeds hlen (Nat.mod_lt (hf hash k) hcap) ⟨f, hf_, hstopf⟩
  obtain ⟨n, hn, hjn, hstopj, _⟩ :=
    probeAux_some_spec hlen _ _ _ (Nat.mod_lt (hf hash k) hcap) hj
  have hjfree : ((t.slots.getD j zeroSlot).hash_or_flags == SH_SLOT_FREE) = true := by
    simp only [getStop, Bool.or_eq_true] at hstopj
    rcases hstopj with hc | hc
    · exact hc
    · have hm : matchesKey hash cmp k (t.slots.getD j zeroSlot) = true := hc
      rw [habsent j] at hm
      exact absurd hm Bool.false_ne_true
  have hgp : sh_get_ptr hash cmp t k = some none := by
    simp only [sh_get_ptr, hj, hjfree, if_true]
  refine ⟨hgp, ?_, ?_⟩
  · intro d
    simp only [sh_getVal, hgp]
  · intro alloc
    simp only [sh_del, hj, hjfree, if_true]

/-- The re-insertion loop of `resize` never manufactures a match: if no
filled slot of the old array matches `k` and the accumulator table has no
match either, the rebuilt table has none. -/
theorem reinsert_no_match (hash : α → Nat) (cmp : α → α → Bool) (k : α) :
    ∀ (l : List (Slot α β)) (u u' : SH α β),
      u.slots.length = u.capacity →
      (∀ s ∈ l, isFilledHof s.hash_or_flags = true →
        s.hash_or_flags = hf hash s.key) →
      (∀ s ∈ l, isFilledHof s.hash_or_flags = true →
        matchesKey hash cmp k s = false) →
      (∀ i, matchesKey hash cmp k (u.slots.getD i zeroSlot) = false) →
      reinsert hash cmp l u = some u' →
      ∀ i, matchesKey hash cmp k (u'.slots.getD i zeroSlot) = false := by
  intro l
  induction l with
  | nil =>
    intro u u' _ _ _ hacc h
    have : u = u' := by
      simpa [reinsert] using h
    rw [← this]
    exact hacc
  | cons s rest ih =>
    intro u u' hlenu hcons hnm hacc h
    by_cases hfil : isFilledHof s.hash_or_flags = true
    · simp only [reinsert, hfil, if_true] at h
      rcases hput : sh_put_ptr_internal hash cmp u s.key with _ | ⟨t1, j⟩
      · simp only [hput] at h
        exact Option.noConfusion h
      · simp only [hput] at h
        obtain ⟨hprobe, ht1⟩ := put_internal_inversion hput
        have hcapu : 0 < u.capacity := by
          by_contra hc0
          rw [put_internal_cap0 hash cmp s.key (by omega)] at hput
          exact Option.noConfusion hput
        obtain ⟨nn, hnn, hjn, _, _⟩ :=
          probeAux_some_spec hlenu _ _ _ (Nat.mod_lt _ hcapu) hprobe
        have hjcap : j < u.capacity := by rw [hjn]; exact Nat.mod_lt _ hcapu
        have hjlen : j < u.slots.length := by rw [hlenu]; exact hjcap
        subst ht1
        set u₂ := writeValue (putInternalResult hash u s.key j) j s.value with hu₂
        have hmid : (putInternalResult hash u s.key j).slots =
            u.slots.set j ⟨hf hash s.key, s.key, (u.slots.getD j zeroSlot).value⟩ := rfl
        have hgetmid : (putInternalResult hash u s.key j).slots.getD j zeroSlot =
            ⟨hf hash s.key, s.key, (u.slots.getD j zeroSlot).value⟩ := by
          rw [hmid]
          exact getD_set_self _ hjlen
        have hslots₂ : u₂.slots = u.slots.set j ⟨hf hash s.key, s.key, s.value⟩ := by
          rw [hu₂]
          show (putInternalResult hash u s.key j).slots.set j
              ⟨((putInternalResult hash u s.key j).slots.getD j zeroSlot).hash_or_flags,
               ((putInternalResult hash u s.key j).slots.getD j zeroSlot).key, s.value⟩ =
            u.slots.set j ⟨hf hash s.key, s.key, s.value⟩
          rw [hgetmid, hmid, List.set_set]
        have hlen₂ : u₂.slots.length = u₂.capacity := by
          have hc : u₂.capacity = u.capacity := by rw [hu₂]; rfl
          rw [hslots₂, List.length_set, hc]
          exact hlenu
        have hacc₂ : ∀ i, matchesKey hash cmp k (u₂.slots.getD i zeroSlot) = false := by
          intro i
          rw [hslots₂]
          by_cases hij : j = i
          · subst hij
            rw [getD_set_self _ hjlen]
            have hs := hnm s (List.mem_cons_self s rest) hfil
            have hhof := hcons s (List.mem_cons_self s rest) hfil
            show ((hf hash s.key == hf hash k) && cmp s.key k) = false
            rw [← hhof]
            exact hs
          · rw [getD_set_ne _ hij]
            exact hacc i
        exact ih u₂ u' hlen₂
          (fun x hx => hcons x (List.mem_cons_of_mem s hx))
          (fun x hx => hnm x (List.mem_cons_of_mem s hx)) hacc₂ h
    · have hfil' : isFilledHof s.hash_or_flags = false := Bool.eq_false_iff.mpr hfil
      simp only [reinsert, hfil', Bool.false_eq_true, if_false] at h
      exact ih u u' hlenu
        (fun x hx => hcons x (List.mem_cons_of_mem s hx))
        (fun x hx => hnm x (List.mem_cons_of_mem s hx)) hacc h

/-- No-match preservation through a whole `resize` call (both outcomes). -/
theorem resize_preserves_no_match (hash : α → Nat) (cmp : α → α → Bool) (k : α)
    {t u : SH α β} {nc : Nat} {bb : Bool}
    (hlen : t.slots.length = t.capacity)
    (hcons : ∀ i, i < t.slots.length →
      isFilledHof (t.slots.getD i zeroSlot).hash_or_flags = true →
      (t.slots.getD i zeroSlot).hash_or_flags = hf hash (t.slots.getD i zeroSlot).key)
    (hnm : ∀ i, matchesKey hash cmp k (t.slots.getD i zeroSlot) = false)
    (h : sh_resize hash cmp true t nc = some (bb, u)) :
    ∀ i, matchesKey hash cmp k (u.slots.getD i zeroSlot) = false := by
  cases bb with
  | false =>
    rw [resize_false_inversion h]
    exact hnm
  | true =>
    have hrein := resize_inversion h
    exact reinsert_no_match hash cmp k t.slots _ u (by simp)
      (forall_mem_of_forall_getD hcons)
      (forall_mem_of_forall_getD (fun i hi _ => hnm i))
      (fun i => by
        rw [show ((⟨0, nc, 0, List.replicate nc zeroSlot⟩ : SH α β)).slots =
          List.replicate nc zeroSlot from rfl, getD_replicate]
        exact zeroSlot_no_match hash cmp k)
      hrein

/-- No-match preservation through `shrink_if_necessary`. -/
theorem shrink_preserves_no_match (hash : α → Nat) (cmp : α → α → Bool) (k : α)
    {t t₂ : SH α β} {b : Bool} (inv : Inv hash t)
    (hnm : ∀ i, matchesKey hash cmp k (t.slots.getD i zeroSlot) = false)
    (h : sh_shrink_if_necessary hash cmp true t = some (b, t₂)) :
    ∀ i, matchesKey hash cmp k (t₂.slots.getD i zeroSlot) = false := by
  by_cases hlt : shrinkLoop t.length t.capacity t.capacity < t.capacity
  · simp only [sh_shrink_if_necessary, if_pos hlt] at h
    rcases hres2 : sh_resize hash cmp true t
        (shrinkLoop t.length t.capacity t.capacity) with _ | ⟨bb, t₂'⟩
    · simp only [hres2] at h
      exact Option.noConfusion h
    · simp only [hres2, Option.some.injEq, Prod.mk.injEq] at h
      rw [← h.2]
      exact resize_preserves_no_match hash cmp k inv.slots_len inv.hash_consistent hnm hres2
  · simp only [sh_shrink_if_necessary, if_neg hlt, Option.some.injEq, Prod.mk.injEq] at h
    rw [← h.2]
    exact hnm

/-! ## Stability of `get` under filling a free slot -/

/-- Writing a new entry into a *free* slot does not disturb any key that
`get` already finds: the found slot is filled and every earlier slot on its
probe path is a non-stopper (in particular not free), so the path avoids the
overwritten slot entirely. -/
theorem get_stable_of_set_free (hash : α → Nat) (cmp : α → α → Bool)
    {u : SH α β} {x : α} {p : Nat}
    (hlen : u.slots.length = u.capacity)
    {j : Nat} {snew : Slot α β}
    (hjfree : ((u.slots.getD j zeroSlot).hash_or_flags == SH_SLOT_FREE) = true)
    {u₂ : SH α β} (h₂slots : u₂.slots = u.slots.set j snew)
    (h₂cap : u₂.capacity = u.capacity)
    (h : sh_get_ptr hash cmp u x = some (some p)) :
    sh_get_ptr hash cmp u₂ x = some (some p) ∧
    u₂.slots.getD p zeroSlot = u.slots.getD p zeroSlot := by
  obtain ⟨hprobe, hpfree⟩ := get_ptr_inversion h
  have hcap : 0 < u.capacity := by
    by_contra hc0
    have hzero : u.capacity = 0 := by omega
    rw [hzero] at hprobe
    simp [probeAux] at hprobe
  obtain ⟨n, hn, hpn, hstopp, hpath⟩ :=
    probeAux_some_spec hlen _ _ _ (Nat.mod_lt (hf hash x) hcap) hprobe
  have hpj : p ≠ j := by
    intro hh
    rw [hh, hjfree] at hpfree
    exact Bool.noConfusion hpfree
  have hgetp : u₂.slots.getD p zeroSlot = u.slots.getD p zeroSlot := by
    rw [h₂slots]
    exact getD_set_ne _ (fun hh => hpj hh.symm)
  have hlen₂ : u₂.slots.length = u.capacity := by
    rw [h₂slots, List.length_set]
    exact hlen
  have hstopp₂ : getStop cmp (hf hash x) x
      (u₂.slots.getD ((hf hash x % u.capacity + n) % u.capacity) zeroSlot) = true := by
    rw [← hpn, hgetp]
    exact hstopp
  have hpath₂ : ∀ m, m < n → getStop cmp (hf hash x) x
      (u₂.slots.getD ((hf hash x % u.capacity + m) % u.capacity) zeroSlot) = false := by
    intro m hm
    have hold := hpath m hm
    have hmj : (hf hash x % u.capacity + m) % u.capacity ≠ j := by
      intro hh
      have hfree' : ((u.slots.getD ((hf hash x % u.capacity + m) % u.capacity)
          zeroSlot).hash_or_flags == SH_SLOT_FREE) = true := by
        rw [hh]
        exact hjfree
      have hold' := hold
      simp only [getStop, Bool.or_eq_false_iff] at hold'
      rw [hold'.1] at hfree'
      exact Bool.noConfusion hfree'
    rw [h₂slots, getD_set_ne _ (fun hh => hmj hh.symm)]
    exact hold
  have hprobe₂ : probeAux (getStop cmp (hf hash x) x) u₂.slots u.capacity u.capacity
      (hf hash x % u.capacity) = some p := by
    rw [hpn]
    exact probeAux_eq_some_of hlen₂ n u.capacity _ (Nat.mod_lt _ hcap) hn hstopp₂ hpath₂
  refine ⟨?_, hgetp⟩
  simp only [sh_get_ptr, h₂cap, hprobe₂, hgetp, hpfree, Bool.false_eq_true, if_false]

/-! ## The re-insertion loop finds every key back (distinct keys) -/

/-- Walking the old slot array over a tombstone-free accumulator in which
none of the remaining keys occurs: every insertion lands in a free slot,
keys already found stay found at the same slot, every processed key becomes
retrievable with its value, and every filled slot of the result is either an
untouched accumulator slot or carries a processed entry verbatim. -/
theorem reinsert_retrievable (hash : α → Nat) (cmp : α → α → Bool)
    (cmpRefl : ∀ a, cmp a a = true) :
    ∀ (l : List (Slot α β)) (u : SH α β),
      u.slots.length = u.capacity →
      deletedCount u.slots = 0 →
      (∀ i, i < u.slots.length →
        isFilledHof (u.slots.getD i zeroSlot).hash_or_flags = true →
        (u.slots.getD i zeroSlot).hash_or_flags =
          hf hash (u.slots.getD i zeroSlot).key) →
      (∀ s ∈ l, isFilledHof s.hash_or_flags = true →
        s.hash_or_flags = hf hash s.key) →
      List.Pairwise (fun s s2 => isFilledHof s.hash_or_flags = true →
        isFilledHof s2.hash_or_flags = true →
        cmp s.key s2.key = false ∧ cmp s2.key s.key = false) l →
      (∀ s ∈ l, isFilledHof s.hash_or_flags = true →
        ∀ i, matchesKey hash cmp s.key (u.slots.getD i zeroSlot) = false) →
      filledCount u.slots + countHof isFilledHof l ≤ u.capacity →
      u.length + countHof isFilledHof l < u32 →
      ∃ u', reinsert hash cmp l u = some u' ∧
        u'.slots.length = u.capacity ∧ u'.capacity = u.capacity ∧
        deletedCount u'.slots = 0 ∧
        (∀ x p, sh_get_ptr hash cmp u x = some (some p) →
          sh_get_ptr hash cmp u' x = some (some p) ∧
          u'.slots.getD p zeroSlot = u.slots.getD p zeroSlot) ∧
        (∀ s ∈ l, isFilledHof s.hash_or_flags = true →
          ∃ p, sh_get_ptr hash cmp u' s.key = some (some p) ∧
            u'.slots.getD p zeroSlot = ⟨hf hash s.key, s.key, s.value⟩) ∧
        (∀ i2, i2 < u'.slots.length →
          isFilledHof (u'.slots.getD i2 zeroSlot).hash_or_flags = true →
          u'.slots.getD i2 zeroSlot = u.slots.getD i2 zeroSlot ∨
          ∃ s, s ∈ l ∧ isFilledHof s.hash_or_flags = true ∧
            u'.slots.getD i2 zeroSlot = ⟨hf hash s.key, s.key, s.value⟩) := by
  intro l
  induction l with
  | nil =>
    intro u hlenu hdc0 _ _ _ _ _ _
    refine ⟨u, rfl, hlenu, rfl, hdc0, ?_, ?_, ?_⟩
    · exact fun x p h => ⟨h, rfl⟩
    · intro x hx
      exact absurd hx (List.not_mem_nil x)
    · intro i2 _ _
      exact Or.inl rfl
  | cons s rest ih =>
    intro u hlenu hdc0 hconsu hconsl hpw habs hroom h32
    have hpwrel := (List.pairwise_cons.mp hpw).1
    have hpwrest := (List.pairwise_cons.mp hpw).2
    by_cases hfil : isFilledHof s.hash_or_flags = true
    · have hcnt : countHof isFilledHof (s :: rest) = 1 + countHof isFilledHof rest := by
        simp [countHof, hfil]
      rw [hcnt] at hroom h32
      have hcap : 0 < u.capacity := by
        have := countHof_le_length isFilledHof u.slots
        omega
      have hfillu : filledCount u.slots < u.capacity := by omega
      obtain ⟨j, n, hjcap, heq, hstopj, hn, hjn, hpath⟩ :=
        put_internal_full hash cmp u s.key hlenu hcap hfillu
      have hjlen : j < u.slots.length := by rw [hlenu]; exact hjcap
      have hjfree : ((u.slots.getD j zeroSlot).hash_or_flags == SH_SLOT_FREE) = true := by
        simp only [putStop, Bool.or_eq_true] at hstopj
        rcases hstopj with (hc | hc) | hc
        · exact hc
        · exfalso
          have hpos : 0 < countHof (fun h => h == SH_SLOT_DELETED) u.slots :=
            countHof_pos_of_true hjlen hc
          simp only [deletedCount] at hdc0
          omega
        · exfalso
          have hm : matchesKey hash cmp s.key (u.slots.getD j zeroSlot) = true := hc
          rw [habs s (List.mem_cons_self s rest) hfil j] at hm
          exact Bool.noConfusion hm
      obtain ⟨u₂, hu₂⟩ : ∃ x, x = writeValue (putInternalResult hash u s.key j) j s.value :=
        ⟨_, rfl⟩
      obtain ⟨hget₂, hslot₂, hlen₂, hcap₂, hne₂⟩ :=
        get_after_put_core hash cmp (fun a => a) (fun _ => rfl) (fun _ _ => rfl)
          (fun _ _ => rfl) cmpRefl s.value (hu₂.trans rfl) hlenu hcap hn hjn hpath
      have hslot₂' : u₂.slots.getD j zeroSlot = ⟨hf hash s.key, s.key, s.value⟩ := hslot₂
      have hmid : (putInternalResult hash u s.key j).slots =
          u.slots.set j ⟨hf hash s.key, s.key, (u.slots.getD j zeroSlot).value⟩ := rfl
      have hgetmid : (putInternalResult hash u s.key j).slots.getD j zeroSlot =
          ⟨hf hash s.key, s.key, (u.slots.getD j zeroSlot).value⟩ := by
        rw [hmid]
        exact getD_set_self _ hjlen
      have hslots₂ : u₂.slots = u.slots.set j ⟨hf hash s.key, s.key, s.value⟩ := by
        rw [hu₂]
        show (putInternalResult hash u s.key j).slots.set j
            ⟨((putInternalResult hash u s.key j).slots.getD j zeroSlot).hash_or_flags,
             ((putInternalResult hash u s.key j).slots.getD j zeroSlot).key, s.value⟩ =
          u.slots.set j ⟨hf hash s.key, s.key, s.value⟩
        rw [hgetmid, hmid, List.set_set]
      have hfree_old : isFilledHof (u.slots.getD j zeroSlot).hash_or_flags = false := by
        rw [beq_iff_eq.mp hjfree]
        decide
      have hdelold : (((u.slots.getD j zeroSlot).hash_or_flags) == SH_SLOT_DELETED)
          = false := by
        rw [beq_iff_eq.mp hjfree]
        decide
      have hdel_new : (((hf hash s.key : Nat)) == SH_SLOT_DELETED) = false :=
        beq_eq_false_iff_ne.mpr (hf_ne_deleted hash s.key)
      obtain ⟨hcA, _, _, hcD⟩ := counts_after_put (l := u.slots) hjlen
        ⟨hf hash s.key, s.key, s.value⟩ (isFilledHof_hf hash s.key) hdel_new
      have hfc₂ : filledCount u₂.slots = filledCount u.slots + 1 := by
        show countHof isFilledHof u₂.slots = countHof isFilledHof u.slots + 1
        rw [hslots₂]
        exact hcA hfree_old
      have hdc₂ : deletedCount u₂.slots = 0 := by
        show countHof _ u₂.slots = 0
        rw [hslots₂, hcD hdelold]
        exact hdc0
      have hlen₂' : u₂.slots.length = u₂.capacity := by rw [hlen₂, hcap₂]
      have hcons₂ : ∀ i, i < u₂.slots.length →
          isFilledHof (u₂.slots.getD i zeroSlot).hash_or_flags = true →
          (u₂.slots.getD i zeroSlot).hash_or_flags =
            hf hash (u₂.slots.getD i zeroSlot).key := by
        intro i hi hfil2
        by_cases hij : i = j
        · subst hij
          rw [hslot₂']
        · rw [hne₂ i hij] at hfil2 ⊢
          refine hconsu i ?_ hfil2
          rw [hlenu, ← hlen₂]
          exact hi
      have hrest_cons : ∀ x ∈ rest, isFilledHof x.hash_or_flags = true →
          x.hash_or_flags = hf hash x.key :=
        fun x hx => hconsl x (List.mem_cons_of_mem s hx)
      have habs₂ : ∀ x ∈ rest, isFilledHof x.hash_or_flags = true →
          ∀ i, matchesKey hash cmp x.key (u₂.slots.getD i zeroSlot) = false := by
        intro x hx hfilx i
        by_cases hij : i = j
        · subst hij
          rw [hslot₂']
          show ((hf hash s.key == hf hash x.key) && cmp s.key x.key) = false
          rw [(hpwrel x hx hfil hfilx).1]
          exact Bool.and_false _
        · rw [hne₂ i hij]
          exact habs x (List.mem_cons_of_mem s hx) hfilx i
      have hroom₂ : filledCount u₂.slots + countHof isFilledHof rest ≤ u₂.capacity := by
        rw [hfc₂, hcap₂]
        omega
      have hlength₂ : u₂.length = u.length + 1 := by
        rw [hu₂]
        show inc32 u.length = u.length + 1
        exact inc32_eq (by omega)
      have h32₂ : u₂.length + countHof isFilledHof rest < u32 := by
        rw [hlength₂]
        omega
      obtain ⟨u', hrec, hc1, hc2, hc3, hstab, hfind, horig⟩ :=
        ih u₂ hlen₂' hdc₂ hcons₂ hrest_cons hpwrest habs₂ hroom₂ h32₂
      refine ⟨u', ?_, ?_, ?_, hc3, ?_, ?_, ?_⟩
      · show reinsert hash cmp (s :: rest) u = some u'
        simp only [reinsert, if_pos hfil, heq]
        rw [← hu₂]
        exact hrec
      · rw [hc1]
        exact hcap₂
      · rw [hc2]
        exact hcap₂
      · intro x p hx
        obtain ⟨hx₂, hslotx₂⟩ :=
          get_stable_of_set_free hash cmp hlenu hjfree hslots₂ hcap₂ hx
        obtain ⟨hx', hslotx'⟩ := hstab x p hx₂
        exact ⟨hx', by rw [hslotx', hslotx₂]⟩
      · intro x hx hfilx
        rcases List.mem_cons.mp hx with rfl | hxr
        · obtain ⟨hg', hslot'⟩ := hstab x.key j hget₂
          exact ⟨j, hg', by rw [hslot']; exact hslot₂'⟩
        · exact hfind x hxr hfilx
      · intro i2 hi2 hfil2
        rcases horig i2 hi2 hfil2 with hsame | ⟨x, hxr, hfilx, hxeq⟩
        · by_cases hij : i2 = j
          · subst hij
            right
            refine ⟨s, List.mem_cons_self s rest, hfil, ?_⟩
            rw [hsame]
            exact hslot₂'
          · left
            rw [hsame]
            exact hne₂ i2 hij
        · exact Or.inr ⟨x, List.mem_cons_of_mem s hxr, hfilx, hxeq⟩
    · have hcnt : countHof isFilledHof (s :: rest) = countHof isFilledHof rest := by
        simp [countHof, hfil]
      rw [hcnt] at hroom h32
      obtain ⟨u', hrec, hc1, hc2, hc3, hstab, hfind, horig⟩ :=
        ih u hlenu hdc0 hconsu (fun x hx => hconsl x (List.mem_cons_of_mem s hx))
          hpwrest (fun x hx hfx => habs x (List.mem_cons_of_mem s hx) hfx) hroom h32
      refine ⟨u', ?_, hc1, hc2, hc3, hstab, ?_, ?_⟩
      · show reinsert hash cmp (s :: rest) u = some u'
        simp only [reinsert, if_neg hfil]
        exact hrec
      · intro x hx hfilx
        rcases List.mem_cons.mp hx with rfl | hxr
        · exact absurd hfilx hfil
        · exact hfind x hxr hfilx
      · intro i2 hi2 hfil2
        rcases horig i2 hi2 hfil2 with hsame | ⟨x, hxr, hfilx, hxeq⟩
        · exact Or.inl hsame
        · exact Or.inr ⟨x, List.mem_cons_of_mem s hxr, hfilx, hxeq⟩

/-- Index-wise pairwise distinctness of the stored keys gives the
`List.Pairwise` form consumed by the re-insertion analysis. -/
theorem pairwise_of_indexed {cmp : α → α → Bool} {l : List (Slot α β)}
    (h : ∀ i, i < l.length → ∀ i2, i2 < l.length → i ≠ i2 →
      isFilledHof (l.getD i zeroSlot).hash_or_flags = true →
      isFilledHof (l.getD i2 zeroSlot).hash_or_flags = true →
      cmp (l.getD i zeroSlot).key (l.getD i2 zeroSlot).key = false) :
    List.Pairwise (fun s s2 => isFilledHof s.hash_or_flags = true →
      isFilledHof s2.hash_or_flags = true →
      cmp s.key s2.key = false ∧ cmp s2.key s.key = false) l := by
  rw [List.pairwise_iff_getElem]
  intro i j hi hj hij hfi hfj
  have hgdi : l.getD i zeroSlot = l[i] := by
    rw [List.getD_eq_getElem?_getD, List.getElem?_eq_getElem hi]
    rfl
  have hgdj : l.getD j zeroSlot = l[j] := by
    rw [List.getD_eq_getElem?_getD, List.getElem?_eq_getElem hj]
    rfl
  constructor
  · have hh := h i hi j hj (by omega) (by rw [hgdi]; exact hfi) (by rw [hgdj]; exact hfj)
    rwa [hgdi, hgdj] at hh
  · have hh := h j hj i hi (by omega) (by rw [hgdj]; exact hfj) (by rw [hgdi]; exact hfi)
    rwa [hgdj, hgdi] at hh

/-! ## Allocation failure (C5) -/

/-- With a failing allocator every `resize` reports failure and returns
the table unchanged (both the `new_capacity < length` guard and the failed
`calloc` exit before any mutation of the original table). -/
theorem resize_alloc_false (hash : α → Nat) (cmp : α → α → Bool)
    (t : SH α β) (nc : Nat) : sh_resize hash cmp false t nc = some (false, t) := by
  simp only [sh_resize]
  split
  · rfl
  · simp

/-- C5: allocation-failure atomicity.  If the allocator fails, any resize
call returns failure with the table — length, capacity, tombstone count and
every slot — exactly as it was; and a `put_ptr` whose grow check triggers a
failing resize returns NULL with the table unchanged instead of inserting
past its load factor. -/
theorem c5_alloc_failure_atomic (hash : α → Nat) (cmp : α → α → Bool) (ingest : α → α) :
    (∀ (t : SH α β) (nc : Nat), sh_resize hash cmp false t nc = some (false, t)) ∧
    (∀ (t : SH α β) (key : α), (t.length + t.deleted + 1) % u32 > t.capacity / 2 →
      sh_put_ptr hash cmp ingest false t key = some (t, none)) := by
  refine ⟨resize_alloc_false hash cmp, ?_⟩
  intro t key hcond
  simp only [sh_put_ptr, if_pos hcond, resize_alloc_false]

/-- Witness for `c5_alloc_failure_atomic` at the concrete four-entry table
`c7d`, whose next insert needs to grow. -/
theorem c5_alloc_failure_atomic_witness :
    sh_resize hId cmpEq false c7d 16 = some (false, c7d) ∧
    sh_put_ptr hId cmpEq ingId false c7d 4 = some (c7d, none) :=
  ⟨(c5_alloc_failure_atomic hId cmpEq ingId).1 c7d 16,
   (c5_alloc_failure_atomic hId cmpEq ingId).2 c7d 4 (by decide)⟩

/-! ## Iterator removal with invalid cursor (C9) -/

/-- C9: `name##_remove` called with a NULL cursor, or with a cursor that
points outside the slot array (`it < slots` or `it - slots >= capacity`),
leaves the table completely unchanged: no retire call, no change to length,
tombstones, or any slot. -/
theorem c9_remove_invalid_cursor_noop (retire : α → α) (t : SH α β) (it : Option Int)
    (h : it = none ∨ ∃ i : Int, it = some i ∧ (i < 0 ∨ (t.capacity : Int) ≤ i)) :
    sh_remove retire t it = t := by
  cases it with
  | none => rfl
  | some i =>
    rcases h with h | ⟨j, hj, hbound⟩
    · exact absurd h (by simp)
    · obtain rfl : i = j := Option.some.inj hj
      simp only [sh_remove]
      rw [if_neg (by omega)]

/-- Witness for `c9_remove_invalid_cursor_noop`: a NULL cursor, a cursor
before the array and a cursor one past its end on the table `c7e`. -/
theorem c9_remove_invalid_cursor_noop_witness :
    sh_remove retZero c7e none = c7e ∧
    sh_remove retZero c7e (some (-3)) = c7e ∧
    sh_remove retZero c7e (some 16) = c7e :=
  ⟨c9_remove_invalid_cursor_noop retZero c7e none (Or.inl rfl),
   c9_remove_invalid_cursor_noop retZero c7e (some (-3))
     (Or.inr ⟨-3, rfl, Or.inl (by decide)⟩),
   c9_remove_invalid_cursor_noop retZero c7e (some 16)
     (Or.inr ⟨16, rfl, Or.inr (by decide)⟩)⟩

/-! ## The default hash on an empty span (C10) -/

/-- C10: `sh_murmur3(key, size, seed)` returns 0 whenever `key` is NULL or
`size` is 0, for every seed — the seed does not influence the hash of an
empty byte span. -/
theorem c10_murmur3_null_or_empty (key : Option (List Nat)) (size : Int) (seed : Nat)
    (h : key = none ∨ size = 0) : sh_murmur3 key size seed = 0 := by
  simp only [sh_murmur3, if_pos h]

/-- Witness for `c10_murmur3_null_or_empty`: a NULL key with nonzero size
and seed, and a non-NULL key with size 0. -/
theorem c10_murmur3_null_or_empty_witness :
    sh_murmur3 none 7 12345 = 0 ∧ sh_murmur3 (some [1, 2, 3]) 0 999 = 0 :=
  ⟨c10_murmur3_null_or_empty none 7 12345 (Or.inl rfl),
   c10_murmur3_null_or_empty (some [1, 2, 3]) 0 999 (Or.inr rfl)⟩

/-! ## `put` of an already-present key (C1, C2) -/

/-- C1: evaluation of the code at the failing input.  After `put(1, 10)`
the key 1 is present with length 1; `put(1, 20)` overwrites the value in
place (no duplicate slot is created, `get` yields 20) but the unguarded
`length++` of `put_ptr_internal` bumps `length` to 2 even though the table
still holds a single entry — contradicting the claim that `length` is
unchanged by the second put. -/
theorem c1_put_of_present_key_increments_length :
    sh_put hId cmpEq ingId true (sh_new hId cmpEq true) 1 10 = some c1mid ∧
    c1mid.length = 1 ∧
    sh_put hId cmpEq ingId true c1mid 1 20 = some c1fin ∧
    c1fin.length = 2 ∧
    sh_getVal hId cmpEq c1fin 1 0 = some 20 ∧
    filledCount c1fin.slots = 1 := by decide

/-- C2: evaluation of the code at the failing input.  With a policy whose
`key_put_expr` returns a fresh variant of the key (as `sh_strdup` does),
`put((7,0), 10)` stores the ingested key `(7,1)`. The second
`put((7,5), 20)` of the same logical key 7 is an update, yet `put_ptr`
runs `key_put_expr` again and `put_ptr_internal` overwrites the stored key:
the slot now holds `ingTag (7,5) = (7,6)`, not the original `(7,1)` —
so `ingest` ran on an overwrite and the stored key was not left
untouched (for string keys this leaks the previously duplicated key). -/
theorem c2_ingest_runs_on_update :
    sh_put hPair cmpFst ingTag true (sh_new hPair cmpFst true) (7, 0) 10 = some c2mid ∧
    (c2mid.slots.getD 0 zeroSlot).key = (7, 1) ∧
    sh_put hPair cmpFst ingTag true c2mid (7, 5) 20 = some c2fin ∧
    (c2fin.slots.getD 0 zeroSlot).key = (7, 6) ∧
    c2fin.length = 2 ∧
    filledCount c2fin.slots = 1 := by decide

/-! ## The load-factor invariant (C6) -/

/-- C6: load-factor invariant.  Every table state reachable from `new()`
by `put`, `del` and iterator `remove` operations in which all allocations
succeed satisfies `length + tombstones ≤ capacity * 0.5 + 1`, stated in
integers as `2 * (length + deleted) ≤ capacity + 2`.  (The code in fact
maintains the slightly stronger bound `length + deleted ≤ capacity / 2`:
the grow check of `put_ptr` fires whenever an insert would push
`length + deleted + 1` past `capacity / 2`.) -/
theorem c6_load_factor_invariant {hash : α → Nat} {cmp : α → α → Bool}
    {ingest : α → α} {retire : α → α} {t : SH α β}
    (h : Reachable hash cmp ingest retire t) :
    2 * (t.length + t.deleted) ≤ t.capacity + 2 := by
  have hload := (inv_reachable h).load
  omega

/-- Witness for `c6_load_factor_invariant` at the concrete table reached by
`new(); put(0, 100); put(1, 101)`. -/
theorem c6_load_factor_invariant_witness :
    2 * (c7b.length + c7b.deleted) ≤ c7b.capacity + 2 :=
  c6_load_factor_invariant
    ((Reachable.put c7a 1 101 c7b
      (Reachable.put (sh_new hId cmpEq true) 0 100 c7a Reachable.new (by decide))
      (by decide)) : Reachable hId cmpEq ingId retZero c7b)

/-! ## The shrink invariant after a miss of `del` (C7) -/

/-- C7: evaluation of the code at the failing input.  `c7state` is reachable
(five puts, of which the fifth grows the table to capacity 16, followed by
four iterator removals; the iterator removal of `name##_remove` documentedly
performs no shrink so that iteration can continue).  It has `length = 1` at
`capacity = 16`, far below the quarter-load threshold.  The next `del` of an
absent key returns through the `SH_SLOT_FREE` early exit of `name##_del`
without evaluating `shrink_if_necessary`, so after this `del` call the table
still violates `length ≥ capacity * 0.25` while `capacity ≠ 8` —
contradicting the claim that the bound holds after any `del`, found or
not. -/
theorem c7_del_of_absent_key_skips_shrink :
    Reachable hId cmpEq ingId retZero c7state ∧
    sh_del hId cmpEq retZero true c7state 100 = some (false, c7state) ∧
    4 * c7state.length < c7state.capacity ∧ c7state.capacity ≠ 8 := by
  have h1 : Reachable hId cmpEq ingId retZero c7a :=
    Reachable.put (sh_new hId cmpEq true) 0 100 c7a Reachable.new (by decide)
  have h2 : Reachable hId cmpEq ingId retZero c7b :=
    Reachable.put c7a 1 101 c7b h1 (by decide)
  have h3 : Reachable hId cmpEq ingId retZero c7c :=
    Reachable.put c7b 2 102 c7c h2 (by decide)
  have h4 : Reachable hId cmpEq ingId retZero c7d :=
    Reachable.put c7c 3 103 c7d h3 (by decide)
  have h5 : Reachable hId cmpEq ingId retZero c7e :=
    Reachable.put c7d 4 104 c7e h4 (by decide)
  have h6 : Reachable hId cmpEq ingId retZero c7r1 := by
    have := Reachable.rem c7e 0 h5 (by decide) (by decide)
    rwa [show sh_remove retZero c7e (some (Int.ofNat 0)) = c7r1 from by decide] at this
  have h7 : Reachable hId cmpEq ingId retZero c7r2 := by
    have := Reachable.rem c7r1 1 h6 (by decide) (by decide)
    rwa [show sh_remove retZero c7r1 (some (Int.ofNat 1)) = c7r2 from by decide] at this
  have h8 : Reachable hId cmpEq ingId retZero c7f := by
    have := Reachable.rem c7r2 2 h7 (by decide) (by decide)
    rwa [show sh_remove retZero c7r2 (some (Int.ofNat 2)) = c7f from by decide] at this
  have h9 : Reachable hId cmpEq ingId retZero c7state := by
    have := Reachable.rem c7f 3 h8 (by decide) (by decide)
    rwa [show sh_remove retZero c7f (some (Int.ofNat 3)) = c7state from by decide] at this
  exact ⟨h9, by decide, by decide, by decide⟩

/-! ## The put/get round trip (C3) -/

/-- C3 (amended): the round trip holds on every reachable table whose
occupancy `length + tombstones` stays below `2^30` (equivalently, before
the capacity has reached `2^31`), for any policy in which `key_hash_expr`
and `key_cmp_expr` do not distinguish a key from its `key_put_expr`-ingested
copy and `key_cmp_expr` is reflexive: `put(k, v)` succeeds and an immediate
`get(k)` returns `v`.  The occupancy bound is necessary: at `2^30` entries
the doubling `capacity * 2` overflows `uint32_t` to `0` and `put` returns
NULL (see the counterexample). -/
theorem c3_roundtrip_on_small_tables {hash : α → Nat} {cmp : α → α → Bool}
    {ingest retire : α → α}
    (hashIng : ∀ a, hash (ingest a) = hash a)
    (cmpIngL : ∀ a b, cmp (ingest a) b = cmp a b)
    (cmpIngR : ∀ a b, cmp a (ingest b) = cmp a b)
    (cmpRefl : ∀ a, cmp a a = true)
    {t : SH α β} (hreach : Reachable hash cmp ingest retire t)
    (hsmall : t.length + t.deleted + 1 ≤ 2 ^ 30) (k : α) (v d : β) :
    ∃ t', sh_put hash cmp ingest true t k v = some t' ∧
      sh_getVal hash cmp t' k d = some v := by
  have inv := inv_reachable hreach
  obtain ⟨tm, j, n, hinvm, hpp, _, hn, hjn, _, hpath⟩ :=
    put_ptr_success hash cmp ingest k inv hsmall
  have hcapm : 0 < tm.capacity := by have := hinvm.cap_ge; omega
  obtain ⟨hget, hslot, _, _, _⟩ :=
    get_after_put_core hash cmp ingest hashIng cmpIngL cmpIngR cmpRefl v rfl
      hinvm.slots_len hcapm hn hjn hpath
  refine ⟨writeValue (putInternalResult hash tm (ingest k) j) j v, ?_, ?_⟩
  · simp only [sh_put, hpp]
  · simp only [sh_getVal, hget, hslot]

/-- Witness for `c3_roundtrip_on_small_tables`: the fresh table of
`SH_GEN_HASH_IMPL` with the identity hash, `put(5, 77)` then `get(5)`. -/
theorem c3_roundtrip_on_small_tables_witness :
    ∃ t', sh_put hId cmpEq ingId true (sh_new hId cmpEq true) 5 77 = some t' ∧
      sh_getVal hId cmpEq t' 5 0 = some 77 :=
  c3_roundtrip_on_small_tables (fun _ => rfl) (fun _ _ => rfl) (fun _ _ => rfl)
    (fun a => by simp [cmpEq])
    (Reachable.new : Reachable hId cmpEq ingId retZero (sh_new hId cmpEq true))
    (by rw [sh_new_eq]; norm_num) 5 77 0

/-- C3 counterexample: the table holding the keys `0, …, 2^30 - 1` at
capacity `2^31` is reachable (it arises from `new()` followed by
`put(0,0); …; put(2^30 - 1, 0)` with every allocation succeeding), yet the
next `put` fails: the grow check fires (`2^30 + 1 > 2^31 * 0.5`), the
doubled capacity `2^31 * 2` overflows `uint32_t` to `0`, `resize(0)` fails
its `new_capacity < length` guard, `put_ptr` returns NULL and `put`
dereferences it — so `put(k, v); get(k)` does not return `v` on this
reachable state, refuting the unrestricted round-trip claim. -/
theorem c3_roundtrip_counterexample :
    Reachable hId cmpEq ingId retZero (prefixTable (2 ^ 30) (2 ^ 31)) ∧
    sh_put hId cmpEq ingId true (prefixTable (2 ^ 30) (2 ^ 31)) (2 ^ 30) 0 = none := by
  constructor
  · obtain ⟨kk, h3, h31, hle, hreach⟩ := reach_prefix_table (2 ^ 30) (le_refl _)
    have hkk : kk = 31 := by
      by_contra hne
      have hlt : kk - 1 ≤ 29 := by omega
      have hb : (2 : Nat) ^ (kk - 1) ≤ 2 ^ 29 := Nat.pow_le_pow_right (by norm_num) hlt
      have h2930 : (2 : Nat) ^ 29 < 2 ^ 30 := by norm_num
      omega
    rwa [hkk] at hreach
  · have hgrow : ((prefixTable (2 ^ 30) (2 ^ 31)).length +
        (prefixTable (2 ^ 30) (2 ^ 31)).deleted + 1) % u32 >
        (prefixTable (2 ^ 30) (2 ^ 31)).capacity / 2 := by
      show (2 ^ 30 + 0 + 1) % u32 > 2 ^ 31 / 2
      norm_num [u32]
    have hc0 : ((prefixTable (2 ^ 30) (2 ^ 31)).capacity == 0) = false := by
      show ((2 ^ 31 : Nat) == 0) = false
      exact beq_eq_false_iff_ne.mpr (by norm_num)
    have hnc : ((prefixTable (2 ^ 30) (2 ^ 31)).capacity * 2) % u32 = 0 := by
      show ((2 ^ 31 : Nat) * 2) % u32 = 0
      norm_num [u32]
    have hres : sh_resize hId cmpEq true (prefixTable (2 ^ 30) (2 ^ 31)) 0 =
        some (false, prefixTable (2 ^ 30) (2 ^ 31)) := by
      have hguard : (0 : Nat) < (prefixTable (2 ^ 30) (2 ^ 31)).length := by
        show (0 : Nat) < 2 ^ 30
        norm_num
      simp only [sh_resize, if_pos hguard]
    simp only [sh_put, sh_put_ptr, if_pos hgrow, hc0, Bool.false_eq_true, if_false,
      hnc, hres]

/-! ## Deletion semantics (C4) -/

/-- The duplicate-entry state is reachable: with the constant-zero hash,
`new(); put(1, 10); put(2, 20); del(1); put(2, 30)` — the last put stops at
the tombstone left in slot 0 before reaching the live entry of key 2 in
slot 1. -/
theorem reach_c4b : Reachable hZero cmpEq ingId retZero c4b := by
  have h1 : Reachable hZero cmpEq ingId retZero c4a :=
    Reachable.put (sh_new hZero cmpEq true) 1 10 c4a Reachable.new (by decide)
  exact Reachable.put c4a 2 20 c4b h1 (by decide)

theorem reach_c4dup : Reachable hZero cmpEq ingId retZero c4dup := by
  have h3 : Reachable hZero cmpEq ingId retZero c4c :=
    Reachable.del c4b 1 true c4c reach_c4b (by decide)
  exact Reachable.put c4c 2 30 c4dup h3 (by decide)

/-- C4 counterexample: on the reachable table `c4dup` the key 2 occupies
two slots (the put probe reused a tombstone without checking for the key
further along the chain).  `del(2)` then returns `true` but only clears the
first slot: the subsequent `get(2)` still returns the stale value 20
instead of the not-found result, and a second `del(2)` returns `true`
again instead of `false` — refuting the unrestricted deletion claim. -/
theorem c4_deletion_counterexample :
    Reachable hZero cmpEq ingId retZero c4dup ∧
    sh_getVal hZero cmpEq c4dup 2 999 = some 30 ∧
    sh_del hZero cmpEq retZero true c4dup 2 = some (true, c4del) ∧
    sh_getVal hZero cmpEq c4del 2 999 = some 20 ∧
    sh_del hZero cmpEq retZero true c4del 2 = some (true, c4fin) :=
  ⟨reach_c4dup, by decide, by decide, by decide, by decide⟩

/-- C4 (amended): the deletion claim holds for a key that is absent before
the `put` (so it is stored in exactly one slot).  On any reachable table
below the overflow bound, with a policy whose hash and comparison do not
distinguish a key from its ingested copy, `put(k, v)` stores
`⟨hash, ingest k, v⟩` in some slot `j`; `del(k)` then returns `true`,
stores `key_del_expr` of the stored key in slot `j`, marks it `Tombstone`,
decrements `length` and increments `tombstones` before the shrink check;
afterwards `get(k)` yields NULL (so `get` returns the default value) and a
second `del(k)` returns `false`. -/
theorem c4_deletion_of_uniquely_stored_key
    {hash : α → Nat} {cmp : α → α → Bool} {ingest retire : α → α}
    (hashIng : ∀ a, hash (ingest a) = hash a)
    (cmpIngL : ∀ a b, cmp (ingest a) b = cmp a b)
    (cmpIngR : ∀ a b, cmp a (ingest b) = cmp a b)
    (cmpRefl : ∀ a, cmp a a = true)
    {t : SH α β} (hreach : Reachable hash cmp ingest retire t)
    (hsmall : t.length + t.deleted + 1 ≤ 2 ^ 30)
    (k : α) (v d : β)
    (habsent : ∀ i, matchesKey hash cmp k (t.slots.getD i zeroSlot) = false) :
    ∃ t₁ j t₂, sh_put hash cmp ingest true t k v = some t₁ ∧
      j < t₁.capacity ∧
      t₁.slots.getD j zeroSlot = ⟨hf hash k, ingest k, v⟩ ∧
      (delAt retire t₁ j).slots.getD j zeroSlot =
        ⟨SH_SLOT_DELETED, retire (ingest k), v⟩ ∧
      (delAt retire t₁ j).length = t₁.length - 1 ∧
      (delAt retire t₁ j).deleted = t₁.deleted + 1 ∧
      (∃ b, sh_shrink_if_necessary hash cmp true (delAt retire t₁ j) = some (b, t₂)) ∧
      sh_del hash cmp retire true t₁ k = some (true, t₂) ∧
      sh_get_ptr hash cmp t₂ k = some none ∧
      sh_getVal hash cmp t₂ k d = some d ∧
      sh_del hash cmp retire true t₂ k = some (false, t₂) := by
  have inv := inv_reachable hreach
  obtain ⟨tm, j, n, hinvm, hpp, horigin, hn, hjn, hstop, hpath⟩ :=
    put_ptr_success hash cmp ingest k inv hsmall
  have hcapm : 0 < tm.capacity := by have := hinvm.cap_ge; omega
  obtain ⟨hget1, hslot1, hlen1, hcap1, hne1⟩ :=
    get_after_put_core hash cmp ingest hashIng cmpIngL cmpIngR cmpRefl v rfl
      hinvm.slots_len hcapm hn hjn hpath
  set t₁ := writeValue (putInternalResult hash tm (ingest k) j) j v with ht₁
  have hput : sh_put hash cmp ingest true t k v = some t₁ := by
    simp only [sh_put, hpp]
  have hinv1 : Inv hash t₁ := inv_put hash cmp ingest inv hput
  have hjcapm : j < tm.capacity := by rw [hjn]; exact Nat.mod_lt _ hcapm
  have hjcap1 : j < t₁.capacity := by rw [hcap1]; exact hjcapm
  have hjlen1 : j < t₁.slots.length := by rw [hinv1.slots_len]; exact hjcap1
  have hnm_tm : ∀ i, matchesKey hash cmp k (tm.slots.getD i zeroSlot) = false := by
    rcases horigin with rfl | ⟨nc, hres⟩
    · exact habsent
    · exact resize_preserves_no_match hash cmp k inv.slots_len inv.hash_consistent
        habsent hres
  have hnm_t₁ : ∀ i, i ≠ j → matchesKey hash cmp k (t₁.slots.getD i zeroSlot) = false := by
    intro i hij
    rw [hne1 i hij]
    exact hnm_tm i
  obtain ⟨hprobe1, hfree1⟩ := get_ptr_inversion hget1
  have hfil1 : isFilledHof (t₁.slots.getD j zeroSlot).hash_or_flags = true := by
    rw [hslot1]
    exact isFilledHof_hf hash k
  obtain ⟨hinvd, hdlen, hddel, hlpos⟩ := inv_delAt hash retire hinv1 hjcap1 hfil1
  obtain ⟨b, t₂, hshr, hinv₂, _, _⟩ := inv_shrink hash cmp hinvd
  have hdel1 : sh_del hash cmp retire true t₁ k = some (true, t₂) := by
    simp only [sh_del, hprobe1, hfree1, Bool.false_eq_true, if_false, hshr]
  have hdslot : (delAt retire t₁ j).slots.getD j zeroSlot =
      ⟨SH_SLOT_DELETED, retire (ingest k), v⟩ := by
    show (t₁.slots.set j ⟨SH_SLOT_DELETED, retire (t₁.slots.getD j zeroSlot).key,
      (t₁.slots.getD j zeroSlot).value⟩).getD j zeroSlot = _
    rw [getD_set_self _ hjlen1, hslot1]
  have hnm_d : ∀ i,
      matchesKey hash cmp k ((delAt retire t₁ j).slots.getD i zeroSlot) = false := by
    intro i
    by_cases hij : i = j
    · subst hij
      rw [hdslot]
      exact deleted_no_match hash cmp k _ _
    · have hset : (delAt retire t₁ j).slots.getD i zeroSlot =
          t₁.slots.getD i zeroSlot := by
        show (t₁.slots.set j ⟨SH_SLOT_DELETED, retire (t₁.slots.getD j zeroSlot).key,
          (t₁.slots.getD j zeroSlot).value⟩).getD i zeroSlot = _
        exact getD_set_ne _ (fun hh => hij hh.symm)
      rw [hset]
      exact hnm_t₁ i hij
  have hnm₂ := shrink_preserves_no_match hash cmp k hinvd hnm_d hshr
  obtain ⟨hgp₂, hgv₂, hdel₂⟩ := absent_key_ops hash cmp retire k hinv₂.slots_len
    (by have := hinv₂.cap_ge; omega) (free_slot_exists hinv₂) hnm₂
  exact ⟨t₁, j, t₂, hput, hjcap1, hslot1, hdslot, hdlen, hddel, ⟨b, hshr⟩, hdel1,
    hgp₂, hgv₂ d, hdel₂ true⟩

/-- Witness for `c4_deletion_of_uniquely_stored_key`: the fresh table with
the identity hash and the absent key 3. -/
theorem c4_deletion_of_uniquely_stored_key_witness :
    ∃ t₁ j t₂, sh_put hId cmpEq ingId true (sh_new hId cmpEq true) 3 42 = some t₁ ∧
      j < t₁.capacity ∧
      t₁.slots.getD j zeroSlot = ⟨hf hId 3, ingId 3, 42⟩ ∧
      (delAt retZero t₁ j).slots.getD j zeroSlot =
        ⟨SH_SLOT_DELETED, retZero (ingId 3), 42⟩ ∧
      (delAt retZero t₁ j).length = t₁.length - 1 ∧
      (delAt retZero t₁ j).deleted = t₁.deleted + 1 ∧
      (∃ b, sh_shrink_if_necessary hId cmpEq true (delAt retZero t₁ j) = some (b, t₂)) ∧
      sh_del hId cmpEq retZero true t₁ 3 = some (true, t₂) ∧
      sh_get_ptr hId cmpEq t₂ 3 = some none ∧
      sh_getVal hId cmpEq t₂ 3 0 = some 0 ∧
      sh_del hId cmpEq retZero true t₂ 3 = some (false, t₂) :=
  c4_deletion_of_uniquely_stored_key (fun _ => rfl) (fun _ _ => rfl) (fun _ _ => rfl)
    (fun a => by simp [cmpEq])
    (Reachable.new : Reachable hId cmpEq ingId retZero (sh_new hId cmpEq true))
    (by rw [sh_new_eq]; norm_num) 3 42 0
    (fun i => by
      rw [sh_new_eq, show (⟨0, 8, 0, List.replicate 8 zeroSlot⟩ : SH Nat Nat).slots =
        List.replicate 8 zeroSlot from rfl, getD_replicate]
      decide)

/-! ## Resize correctness (C8) -/

/-- C8 counterexample: on the reachable duplicate state `c4dup` (key 2
stored in slots 0 and 1 with values 30 and 20), a successful resize to 16
(`16 ≥ length`) re-inserts the filled slots in physical order, so the stale
value 20 overwrites the live 30: key 2 was retrievable with value 30 before
the resize and with 20 after — refuting the unrestricted claim that every
previously filled key stays retrievable with its previous value. -/
theorem c8_resize_counterexample :
    Reachable hZero cmpEq ingId retZero c4dup ∧
    c4dup.length ≤ 16 ∧
    sh_getVal hZero cmpEq c4dup 2 999 = some 30 ∧
    sh_resize hZero cmpEq true c4dup 16 = some (true, c8res) ∧
    sh_getVal hZero cmpEq c8res 2 999 = some 20 :=
  ⟨reach_c4dup, by decide, by decide, by decide, by decide⟩

/-- C8 (amended): on a reachable table whose filled slots carry pairwise
`key_cmp_expr`-distinct keys (with a reflexive comparison), a resize to any
`new_capacity ≥ length` succeeds, drops every tombstone (the `deleted`
field and the tombstone slot count are both 0), makes every previously
filled key retrievable with its previous value, and stores every
re-inserted entry verbatim — key, cached hash and value are those of some
filled slot of the old table, so `key_put_expr` is never involved (the
re-insertion loop calls `put_ptr_internal` directly on the stored key). -/
theorem c8_resize_correct_for_distinct_keys
    {hash : α → Nat} {cmp : α → α → Bool} {ingest retire : α → α}
    (cmpRefl : ∀ a, cmp a a = true)
    {t : SH α β} (hreach : Reachable hash cmp ingest retire t)
    {nc : Nat} (hnc : t.length ≤ nc) (d : β)
    (hdist : ∀ i, i < t.slots.length → ∀ i2, i2 < t.slots.length → i ≠ i2 →
      isFilledHof (t.slots.getD i zeroSlot).hash_or_flags = true →
      isFilledHof (t.slots.getD i2 zeroSlot).hash_or_flags = true →
      cmp (t.slots.getD i zeroSlot).key (t.slots.getD i2 zeroSlot).key = false) :
    ∃ t', sh_resize hash cmp true t nc = some (true, t') ∧
      t'.deleted = 0 ∧ deletedCount t'.slots = 0 ∧
      (∀ i, i < t.slots.length →
        isFilledHof (t.slots.getD i zeroSlot).hash_or_flags = true →
        sh_getVal hash cmp t' (t.slots.getD i zeroSlot).key d =
          some (t.slots.getD i zeroSlot).value) ∧
      (∀ i2, i2 < t'.slots.length →
        isFilledHof (t'.slots.getD i2 zeroSlot).hash_or_flags = true →
        ∃ i, i < t.slots.length ∧
          isFilledHof (t.slots.getD i zeroSlot).hash_or_flags = true ∧
          (t'.slots.getD i2 zeroSlot).key = (t.slots.getD i zeroSlot).key ∧
          (t'.slots.getD i2 zeroSlot).hash_or_flags =
            (t.slots.getD i zeroSlot).hash_or_flags ∧
          (t'.slots.getD i2 zeroSlot).value = (t.slots.getD i zeroSlot).value) := by
  have inv := inv_reachable hreach
  have hfl := inv.filled_le
  have hload := inv.load
  have hcaple := inv.cap_le
  have h32f : filledCount t.slots < u32 := by
    have hu : (2 : Nat) ^ 31 < u32 := by norm_num [u32]
    omega
  obtain ⟨t', hres, r1, r2, r3, r4, r5, r6, r7⟩ :=
    resize_success hash cmp t nc (by omega) (by omega) h32f
  have hrein := resize_inversion hres
  obtain ⟨u'', hrec, hc1, hc2, hc3, hstab, hfind, horig⟩ :=
    reinsert_retrievable hash cmp cmpRefl t.slots
      ⟨0, nc, 0, List.replicate nc zeroSlot⟩
      (by simp)
      (by
        show countHof _ (List.replicate nc zeroSlot) = 0
        rw [countHof_replicate]
        simp [show ((SH_SLOT_FREE == SH_SLOT_DELETED)) = false from by decide])
      (by
        intro i hi hfil
        rw [show ((⟨0, nc, 0, List.replicate nc zeroSlot⟩ : SH α β)).slots =
          List.replicate nc zeroSlot from rfl, getD_replicate, isFilledHof_zero] at hfil
        exact absurd hfil Bool.false_ne_true)
      (forall_mem_of_forall_getD inv.hash_consistent)
      (pairwise_of_indexed hdist)
      (by
        intro x hx hfx i
        rw [show ((⟨0, nc, 0, List.replicate nc zeroSlot⟩ : SH α β)).slots =
          List.replicate nc zeroSlot from rfl, getD_replicate]
        exact zeroSlot_no_match hash cmp x.key)
      (by
        show filledCount (List.replicate nc zeroSlot) + countHof isFilledHof t.slots ≤ nc
        have hz : filledCount (List.replicate nc (zeroSlot (α := α) (β := β))) = 0 := by
          show countHof _ _ = 0
          rw [countHof_replicate]
          simp [show isFilledHof SH_SLOT_FREE = false from by decide]
        rw [hz]
        simp only [filledCount] at hfl
        omega)
      (by
        show (0 : Nat) + countHof isFilledHof t.slots < u32
        simp only [filledCount] at h32f
        omega)
  have ht'u : u'' = t' := by
    rw [hrein] at hrec
    exact (Option.some.inj hrec).symm
  rw [← ht'u] at hres r3 r4
  refine ⟨u'', hres, r3, r4, ?_, ?_⟩
  · intro i hi hfil
    have hgd : t.slots.getD i zeroSlot = t.slots[i] := by
      rw [List.getD_eq_getElem?_getD, List.getElem?_eq_getElem hi]
      rfl
    have hmem : t.slots.getD i zeroSlot ∈ t.slots := by
      rw [hgd]
      exact List.getElem_mem hi
    obtain ⟨p, hp, hps⟩ := hfind _ hmem hfil
    simp only [sh_getVal, hp, hps]
  · intro i2 hi2 hfil2
    rcases horig i2 hi2 hfil2 with hsame | ⟨x, hxmem, hfilx, hxeq⟩
    · exfalso
      rw [hsame, show ((⟨0, nc, 0, List.replicate nc zeroSlot⟩ : SH α β)).slots =
        List.replicate nc zeroSlot from rfl, getD_replicate, isFilledHof_zero] at hfil2
      exact Bool.noConfusion hfil2
    · obtain ⟨i, hi, hxi⟩ := List.mem_iff_getElem.mp hxmem
      have hgd : t.slots.getD i zeroSlot = x := by
        rw [List.getD_eq_getElem?_getD, List.getElem?_eq_getElem hi]
        exact hxi
      have hconsall : ∀ s ∈ t.slots, isFilledHof s.hash_or_flags = true →
          s.hash_or_flags = hf hash s.key :=
        forall_mem_of_forall_getD inv.hash_consistent
      refine ⟨i, hi, by rw [hgd]; exact hfilx, ?_, ?_, ?_⟩
      · rw [hxeq, hgd]
      · rw [hxeq, hgd]
        exact (hconsall x hxmem hfilx).symm
      · rw [hxeq, hgd]

/-- Witness for `c8_resize_correct_for_distinct_keys`: the reachable
two-entry table `c4b` (distinct keys 1 and 2) resized to 16. -/
theorem c8_resize_correct_for_distinct_keys_witness :
    ∃ t', sh_resize hZero cmpEq true c4b 16 = some (true, t') ∧
      t'.deleted = 0 ∧ deletedCount t'.slots = 0 ∧
      (∀ i, i < c4b.slots.length →
        isFilledHof (c4b.slots.getD i zeroSlot).hash_or_flags = true →
        sh_getVal hZero cmpEq t' (c4b.slots.getD i zeroSlot).key 999 =
          some (c4b.slots.getD i zeroSlot).value) ∧
      (∀ i2, i2 < t'.slots.length →
        isFilledHof (t'.slots.getD i2 zeroSlot).hash_or_flags = true →
        ∃ i, i < c4b.slots.length ∧
          isFilledHof (c4b.slots.getD i zeroSlot).hash_or_flags = true ∧
          (t'.slots.getD i2 zeroSlot).key = (c4b.slots.getD i zeroSlot).key ∧
          (t'.slots.getD i2 zeroSlot).hash_or_flags =
            (c4b.slots.getD i zeroSlot).hash_or_flags ∧
          (t'.slots.getD i2 zeroSlot).value = (c4b.slots.getD i zeroSlot).value) :=
  c8_resize_correct_for_distinct_keys (fun a => by simp [cmpEq]) reach_c4b
    (by decide) 999 (by decide)

end SlimHash
